import Mathlib

/-!
Verification development for the in-memory text-buffer core declared in
`src/buffer.hh` (namespace Kakoune).  The header only declares the operations;
their bodies live outside the provided sources, so every operation below is
modelled from the specification document, staying as close as possible to its
wording.  Text is represented as `List Char`; a line terminator is the
character `'\n'`.  Machine integers (`LineCount`, `ByteCount`) are modelled as
`Nat`: all quantities involved are small non-negative counts.

Omitted, because no claim observes them: the buffer name and flags, windows,
option/hook managers, and the change-listener registry (notification is a
synchronous fan-out with no effect on buffer state).
-/

/-- Modelled from `BufferCoord` (`src/buffer.hh`, lines 20-24): a (line, column)
pair.  `LineCount` and `ByteCount` are both modelled as `Nat`. -/
structure BufferCoord where
  line : Nat
  column : Nat
deriving DecidableEq, Repr

/-- Lexicographic strict order on coordinates (line, then column), as a
Boolean test. -/
def coordLt (a b : BufferCoord) : Bool :=
  a.line < b.line || (a.line = b.line && a.column < b.column)

/-- Lexicographic order, non-strict variant. -/
def coordLe (a b : BufferCoord) : Bool :=
  a.line < b.line || (a.line = b.line && a.column ≤ b.column)

/-- Modelled from `Buffer::Line` (`src/buffer.hh`, lines 190-196): a line's
starting byte offset from buffer start together with its content (including
its trailing line terminator, except possibly for the final line). -/
structure BufferLine where
  start : Nat
  content : List Char
deriving DecidableEq, Repr

instance : Inhabited BufferLine := ⟨⟨0, []⟩⟩

/-- Byte length of a line, `Buffer::Line::length`. -/
def BufferLine.len (l : BufferLine) : Nat := l.content.length

/-- Modelled from the spec (§4.3): splitting inserted content on
line-terminator bytes.  Returns the list of full terminator-ended segments in
order, and the trailing leftover after the last terminator (empty when the
content ends with a terminator). -/
def splitContent : List Char → List (List Char) × List Char
  | [] => ([], [])
  | c :: rest =>
    let p := splitContent rest
    if c = '\n' then ([c] :: p.1, p.2)
    else
      match p.1 with
      | [] => ([], c :: p.2)
      | f :: fs => ((c :: f) :: fs, p.2)

/-- Rebuild a run of lines from a base byte offset and a list of contents,
computing each successive start offset by the forward scan the spec describes
(start of line i+1 = start of line i + length of line i's content). -/
def linesFrom (off : Nat) : List (List Char) → List BufferLine
  | [] => []
  | c :: cs => ⟨off, c⟩ :: linesFrom (off + c.length) cs

/-- Modelled from the spec (§6 construction contract): the initial content is
split into terminator-delimited lines; a trailing segment without terminator
becomes the final line. -/
def toLines (s : List Char) : List (List Char) :=
  let p := splitContent s
  p.1 ++ (if p.2 = [] then [] else [p.2])

/-- Coordinate validity relative to a line store, from the spec (§3):
valid iff `0 ≤ line < line_count()` and `0 ≤ column ≤ length(line)`. -/
def validCoord (lines : List BufferLine) (p : BufferCoord) : Prop :=
  p.line < lines.length ∧ p.column ≤ (lines.getD p.line default).len

instance (lines : List BufferLine) (p : BufferCoord) :
    Decidable (validCoord lines p) := by
  unfold validCoord; infer_instance

/-- Modelled from the spec (§4.3, insert): the new contents of the edited
region.  The target line is split at the column into front and back parts; if
the inserted text holds no terminator it is spliced into the single line,
otherwise new lines are made from the terminator-delimited segments, the
original line's back part becoming the tail of the last new line. -/
def newContents (old : List Char) (col : Nat) (s : List Char) : List (List Char) :=
  let front := old.take col
  let back := old.drop col
  match splitContent s with
  | ([], _) => [front ++ s ++ back]
  | (f :: fs, r) => (front ++ f) :: fs ++ [r ++ back]

/-- Modelled from the spec (§4.3): `Buffer::do_insert` on the line store
(declared `src/buffer.hh` line 208).  Lines before the edit point keep their
stored offsets; the edited line and everything after it are rebuilt with
offsets recomputed by a forward scan starting from the edited line's stored
start offset. -/
def do_insert (lines : List BufferLine) (p : BufferCoord) (s : List Char) :
    List BufferLine :=
  let old := lines.getD p.line default
  lines.take p.line ++
    linesFrom old.start
      (newContents old.content p.column s ++ (lines.drop (p.line + 1)).map BufferLine.content)

/-- Modelled from the spec (§4.3): `Buffer::do_erase` on the line store
(declared `src/buffer.hh` line 209).  Lines fully inside the erased region are
removed, the partial first and last lines are spliced together, and offsets
from the edit point onward are recomputed by the same forward scan. -/
def do_erase (lines : List BufferLine) (b e : BufferCoord) : List BufferLine :=
  let lb := lines.getD b.line default
  let le := lines.getD e.line default
  let merged := lb.content.take b.column ++ le.content.drop e.column
  lines.take b.line ++
    linesFrom lb.start (merged :: (lines.drop (e.line + 1)).map BufferLine.content)

/-- Coordinate of the end of an insertion of `s` at `p`, in post-edit
coordinates: same line advanced by the byte count for terminator-free content,
otherwise the line advances by the number of terminators and the column is the
length of the content's last (unterminated) part. -/
def insertEnd (p : BufferCoord) (s : List Char) : BufferCoord :=
  match splitContent s with
  | ([], _) => ⟨p.line, p.column + s.length⟩
  | (f :: fs, r) => ⟨p.line + (f :: fs).length, r.length⟩

/-- Modelled from the spec (§6, `string(begin, end)`): the text between two
coordinates, read structurally from the line store. -/
def textBetween (lines : List BufferLine) (b e : BufferCoord) : List Char :=
  if b.line = e.line then
    ((lines.getD b.line default).content.take e.column).drop b.column
  else
    (lines.getD b.line default).content.drop b.column ++
    (((lines.drop (b.line + 1)).take (e.line - (b.line + 1))).map BufferLine.content).flatten ++
    (lines.getD e.line default).content.take e.column

/-- Kind of a primitive modification record, from the spec (§3 Undo Group):
`{kind: insert|erase}`. -/
inductive ModKind where
  | ins : ModKind
  | er : ModKind
deriving DecidableEq, Repr

/-- Modelled from `Buffer::Modification` (declared `src/buffer.hh` line 214)
per the spec (§3): a primitive modification `{kind, coordinate, content}`. -/
structure Modification where
  kind : ModKind
  coord : BufferCoord
  content : List Char
deriving DecidableEq, Repr

/-- Replay a primitive modification on the line store (spec §4.4: redo
"re-applies, in original order, each primitive of the group"), through the
same mutation path as ordinary edits. -/
def applyModification (lines : List BufferLine) (m : Modification) : List BufferLine :=
  match m.kind with
  | .ins => do_insert lines m.coord m.content
  | .er => do_erase lines m.coord (insertEnd m.coord m.content)

/-- Replay the inverse of a primitive modification (spec §4.4: undo "applies
the inverse of each primitive"). -/
def revertModification (lines : List BufferLine) (m : Modification) : List BufferLine :=
  match m.kind with
  | .ins => do_erase lines m.coord (insertEnd m.coord m.content)
  | .er => do_insert lines m.coord m.content

/-- An undo group: ordered sequence of primitive modifications treated as one
atomic undo/redo unit (spec §3). -/
abbrev UndoGroup := List Modification

/-- Error signal of a failed mutation (spec §7: invalid coordinate, reported
as an out-of-range error). -/
inductive BufErr where
  | outOfRange : BufErr
deriving DecidableEq, Repr

/-- Modelled from `class Buffer` (`src/buffer.hh`, lines 95-235): the line
store, the undo history with its cursor, the currently accumulating undo
group with the grouping flag (spec §4.4 state machine, idle/grouping), the
cursor position recorded at the last save, and the timestamp. -/
structure Buffer where
  lines : List BufferLine
  history : List UndoGroup
  historyCursor : Nat
  currentGroup : UndoGroup
  inGroup : Bool
  lastSaveUndoIndex : Nat
  timestamp : Nat
deriving DecidableEq, Repr

/-- Modelled from the spec (§6 construction contract): a buffer is created
from initial content (defaulting to a single line terminator), with empty
history, cursor at history start, and the saved index recorded there. -/
def mkBuffer (s : List Char) : Buffer :=
  { lines := linesFrom 0 (toLines s)
    history := []
    historyCursor := 0
    currentGroup := []
    inGroup := false
    lastSaveUndoIndex := 0
    timestamp := 0 }

/-- Commit an undo group (spec §4.4): groups after the history cursor are
discarded, the new group is appended, and the cursor advances past it. -/
def commitGroup (b : Buffer) (g : UndoGroup) : Buffer :=
  { b with history := b.history.take b.historyCursor ++ [g]
           historyCursor := (b.history.take b.historyCursor).length + 1 }

/-- Record a freshly applied primitive (spec §4.4): appended to the currently
accumulating group when grouping, otherwise committed as an implicit
single-record group. -/
def recordModification (b : Buffer) (m : Modification) : Buffer :=
  if b.inGroup then { b with currentGroup := b.currentGroup ++ [m] }
  else commitGroup b [m]

/-- Modelled from the spec (§4.3, §4.4): `Buffer::insert` (declared
`src/buffer.hh` line 115).  Fails with an out-of-range error when the
coordinate is invalid for the current state, leaving the buffer untouched;
otherwise mutates the line store and records the primitive. -/
def Buffer.insert (b : Buffer) (p : BufferCoord) (s : List Char) :
    Buffer × Option BufErr :=
  if validCoord b.lines p then
    (recordModification
      { b with lines := do_insert b.lines p s, timestamp := b.timestamp + 1 }
      ⟨.ins, p, s⟩, none)
  else (b, some .outOfRange)

/-- Modelled from the spec (§4.3, §4.4): `Buffer::erase` (declared
`src/buffer.hh` line 116).  Fails with an out-of-range error when either
coordinate is invalid; otherwise splices the store and records the erased
text so the primitive can be inverted. -/
def Buffer.erase (b : Buffer) (bg en : BufferCoord) : Buffer × Option BufErr :=
  if validCoord b.lines bg ∧ validCoord b.lines en then
    (recordModification
      { b with lines := do_erase b.lines bg en, timestamp := b.timestamp + 1 }
      ⟨.er, bg, textBetween b.lines bg en⟩, none)
  else (b, some .outOfRange)

/-- Modelled from the spec (§4.4): `Buffer::begin_undo_group` (declared
`src/buffer.hh` line 120): enter the grouping state with an empty group. -/
def Buffer.begin_undo_group (b : Buffer) : Buffer :=
  { b with inGroup := true, currentGroup := [] }

/-- Modelled from the spec (§4.4): `Buffer::end_undo_group` (declared
`src/buffer.hh` line 121): leave the grouping state, committing the
accumulated group (a group in which no primitive was recorded is dropped). -/
def Buffer.end_undo_group (b : Buffer) : Buffer :=
  if b.currentGroup = [] then { b with inGroup := false }
  else { commitGroup b b.currentGroup with inGroup := false, currentGroup := [] }

/-- Modelled from the spec (§4.4): `Buffer::undo` (declared `src/buffer.hh`
line 122).  With the cursor at the start of history it fails and has no
effect; otherwise it decrements the cursor and applies the inverse of each
primitive of the group at the new cursor position in reverse order
(last-edited-first). -/
def Buffer.undo (b : Buffer) : Buffer × Bool :=
  if b.historyCursor = 0 then (b, false)
  else
    let g := b.history.getD (b.historyCursor - 1) []
    ({ b with lines := g.reverse.foldl revertModification b.lines
              historyCursor := b.historyCursor - 1
              timestamp := b.timestamp + g.length }, true)

/-- Modelled from the spec (§4.4): `Buffer::redo` (declared `src/buffer.hh`
line 123).  With the cursor at the end of history it fails; otherwise it
re-applies, in original order, each primitive of the group at the cursor and
advances the cursor. -/
def Buffer.redo (b : Buffer) : Buffer × Bool :=
  if b.history.length ≤ b.historyCursor then (b, false)
  else
    let g := b.history.getD b.historyCursor []
    ({ b with lines := g.foldl applyModification b.lines
              historyCursor := b.historyCursor + 1
              timestamp := b.timestamp + g.length }, true)

/-- Modelled from the spec (§4.4): `Buffer::reset_undo_data` (declared
`src/buffer.hh` line 124): clears history and cursor without touching buffer
content. -/
def Buffer.reset_undo_data (b : Buffer) : Buffer :=
  { b with history := [], historyCursor := 0, currentGroup := [],
           lastSaveUndoIndex := 0 }

/-- Modelled from the spec (§4.4): `Buffer::is_modified` (declared
`src/buffer.hh` line 156) compares the current history-cursor position
against the cursor position recorded at the last `notify_saved()` call. -/
def Buffer.is_modified (b : Buffer) : Bool :=
  b.historyCursor != b.lastSaveUndoIndex

/-- Modelled from the spec (§4.4): `Buffer::notify_saved` (declared
`src/buffer.hh` line 159) records the current cursor position as the saved
state. -/
def Buffer.notify_saved (b : Buffer) : Buffer :=
  { b with lastSaveUndoIndex := b.historyCursor }

/-- `Buffer::line_count` (declared `src/buffer.hh` line 132). -/
def Buffer.line_count (b : Buffer) : Nat := b.lines.length

/-- `Buffer::line_length` (declared `src/buffer.hh` line 133). -/
def Buffer.line_length (b : Buffer) (l : Nat) : Nat :=
  (b.lines.getD l default).len

/-- Character count of a line store: the final line's start offset (the byte
offset of its first byte from buffer start, §3) plus its length. -/
def charCountOf (lines : List BufferLine) : Nat :=
  match lines.getLast? with
  | none => 0
  | some l => l.start + l.len

/-- Modelled from the spec: `Buffer::character_count` (declared
`src/buffer.hh` line 131). -/
def Buffer.character_count (b : Buffer) : Nat :=
  charCountOf b.lines

/-- Does a line's content end with the line terminator? -/
def endsNL (c : List Char) : Prop := c.getLast? = some '\n'

instance (c : List Char) : Decidable (endsNL c) := by
  unfold endsNL; infer_instance

/-- Modelled from the spec (§4.1): `Buffer::clamp` (declared `src/buffer.hh`
line 143).  The line is clamped to `[0, line_count()-1]` and the column to
`[0, length(line)]`; when `avoid_eol` is set and the clamped column would land
exactly on the trailing line terminator, the column is reduced by one. -/
def Buffer.clamp (b : Buffer) (p : BufferCoord) (avoid_eol : Bool) : BufferCoord :=
  let l := min p.line (b.line_count - 1)
  let len := b.line_length l
  let c := min p.column len
  ⟨l, if avoid_eol = true ∧ endsNL (b.lines.getD l default).content ∧ c = len
      then len - 1 else c⟩

/-- Modelled from `class BufferIterator` (`src/buffer.hh`, lines 27-81): a
non-owning reference to a buffer (nullable, held as an `Option`) together
with a cached coordinate. -/
structure BufferIterator where
  m_buffer : Option Buffer
  m_coord : BufferCoord

/-- The default constructor `BufferIterator()` (`src/buffer.hh` line 36)
sets the buffer pointer to null. -/
def BufferIterator.mkDefault : BufferIterator :=
  { m_buffer := none, m_coord := ⟨0, 0⟩ }

/-- Modelled from the spec (§4.2): `BufferIterator::is_valid` (declared
`src/buffer.hh` lines 63-65) reports false once the underlying buffer
reference is gone. -/
def BufferIterator.is_valid (it : BufferIterator) : Bool :=
  it.m_buffer.isSome

/-- Modelled from the spec (§4.2, §7): dereferencing a Position reads the
character at its cached coordinate; using an invalid Position is a reportable
error, modelled as `none`. -/
def BufferIterator.deref (it : BufferIterator) : Option Char :=
  match it.m_buffer with
  | none => none
  | some b => ((b.lines.getD it.m_coord.line default).content).get? it.m_coord.column

/-- Modelled from the spec (§4.2): the pure coordinate transform of
`BufferIterator::on_insert` (declared `src/buffer.hh` line 67), given the
inserted region in post-edit coordinates. -/
def onInsert (p bg en : BufferCoord) : BufferCoord :=
  if coordLt p bg then p
  else if p.line = bg.line then
    if en.line = bg.line then ⟨p.line, p.column + (en.column - bg.column)⟩
    else ⟨p.line + (en.line - bg.line), en.column + (p.column - bg.column)⟩
  else ⟨p.line + (en.line - bg.line), p.column⟩

/-- Modelled from the spec (§4.2): the pure coordinate transform of
`BufferIterator::on_erase` (declared `src/buffer.hh` line 68), given the
erased region in pre-edit coordinates. -/
def onErase (p bg en : BufferCoord) : BufferCoord :=
  if coordLe p bg then p
  else if coordLt p en then bg
  else if p.line = en.line then ⟨bg.line, bg.column + (p.column - en.column)⟩
  else ⟨p.line - (en.line - bg.line), p.column⟩

/-!
## The buffer invariant

The four clauses are stated the way the specification and the claims state
them: the store is never empty; every line except possibly the last ends with
exactly one line-terminator byte (its content is some terminator-free text
followed by the terminator); `character_count()` equals the sum of all line
lengths; and consecutive start offsets differ by the earlier line's length.
-/

/-- The content holds no terminator before its final byte. -/
def noMidNL (c : List Char) : Prop := '\n' ∉ c.dropLast

instance (c : List Char) : Decidable (noMidNL c) := by
  unfold noMidNL; infer_instance

/-- A non-final line's content: ends with exactly one line-terminator byte
(equivalently, terminator-free text followed by one terminator). -/
def lineOK (c : List Char) : Prop := endsNL c ∧ noMidNL c

instance (c : List Char) : Decidable (lineOK c) := by
  unfold lineOK; infer_instance

/-- Well-formedness of the sequence of line contents: every line except the
last ends with exactly one terminator; the last may lack the terminator but
holds none before its final byte. -/
def linesOK : List (List Char) → Prop
  | [] => True
  | [c] => noMidNL c
  | c :: c2 :: cs => lineOK c ∧ linesOK (c2 :: cs)

instance linesOKDec : (cs : List (List Char)) → Decidable (linesOK cs)
  | [] => .isTrue trivial
  | [c] => decidable_of_iff (noMidNL c) (by simp [linesOK])
  | c :: c2 :: cs =>
    have : Decidable (linesOK (c2 :: cs)) := linesOKDec (c2 :: cs)
    decidable_of_iff (lineOK c ∧ linesOK (c2 :: cs)) (by simp [linesOK])

/-- The start offset of line i+1 equals the start offset of line i plus the
length of line i's content. -/
def consecStarts : List BufferLine → Prop
  | [] => True
  | [_] => True
  | a :: b :: rest => b.start = a.start + a.len ∧ consecStarts (b :: rest)

instance consecStartsDec : (ls : List BufferLine) → Decidable (consecStarts ls)
  | [] => .isTrue trivial
  | [_] => .isTrue trivial
  | a :: b :: rest =>
    have : Decidable (consecStarts (b :: rest)) := consecStartsDec (b :: rest)
    decidable_of_iff (b.start = a.start + a.len ∧ consecStarts (b :: rest))
      (by simp [consecStarts])

/-- Sum of the line lengths of a sequence of contents. -/
def sumLens (cs : List (List Char)) : Nat := (cs.map List.length).sum

/-- The buffer invariant, exactly as the specification states it. -/
def BufInv (lines : List BufferLine) : Prop :=
  lines ≠ [] ∧ linesOK (lines.map BufferLine.content) ∧ consecStarts lines ∧
  charCountOf lines = sumLens (lines.map BufferLine.content)

instance (lines : List BufferLine) : Decidable (BufInv lines) := by
  unfold BufInv; infer_instance

/-- Canonical-offset presentation of a line store: it equals the rebuild of
its own contents by the forward offset scan starting at `a`. -/
def canonFrom (a : Nat) (ls : List BufferLine) : Prop :=
  ls = linesFrom a (ls.map BufferLine.content)

instance (a : Nat) (ls : List BufferLine) : Decidable (canonFrom a ls) := by
  unfold canonFrom; infer_instance

/-- A mutation coordinate that does not sit just past a line's trailing
terminator: it is valid, and on a terminator-ended line its column stays
strictly below the line length. -/
def SafeIns (lines : List BufferLine) (p : BufferCoord) : Prop :=
  validCoord lines p ∧
  (endsNL (lines.getD p.line default).content →
    p.column < (lines.getD p.line default).len)

instance (lines : List BufferLine) (p : BufferCoord) :
    Decidable (SafeIns lines p) := by
  unfold SafeIns; infer_instance

/-- Safe erase region: both coordinates are safe and they are ordered. -/
def SafeEr (lines : List BufferLine) (q1 q2 : BufferCoord) : Prop :=
  SafeIns lines q1 ∧ SafeIns lines q2 ∧ coordLe q1 q2 = true

instance (lines : List BufferLine) (q1 q2 : BufferCoord) :
    Decidable (SafeEr lines q1 q2) := by
  unfold SafeEr; infer_instance

/-- The inverse of a recorded primitive replays at safe coordinates on the
given store. -/
def SafeRevertMod (lines : List BufferLine) (m : Modification) : Prop :=
  match m.kind with
  | .ins => SafeEr lines m.coord (insertEnd m.coord m.content)
  | .er => SafeIns lines m.coord

instance (lines : List BufferLine) (m : Modification) :
    Decidable (SafeRevertMod lines m) := by
  unfold SafeRevertMod
  rcases m with ⟨k, c, s⟩
  cases k <;> infer_instance

/-- A recorded primitive replays at safe coordinates on the given store. -/
def SafeApplyMod (lines : List BufferLine) (m : Modification) : Prop :=
  match m.kind with
  | .ins => SafeIns lines m.coord
  | .er => SafeEr lines m.coord (insertEnd m.coord m.content)

instance (lines : List BufferLine) (m : Modification) :
    Decidable (SafeApplyMod lines m) := by
  unfold SafeApplyMod
  rcases m with ⟨k, c, s⟩
  cases k <;> infer_instance

/-- Each inverse in the sequence replays safely on the store it meets. -/
def SafeRevertSeq : List BufferLine → List Modification → Prop
  | _, [] => True
  | ls, m :: ms =>
    SafeRevertMod ls m ∧ SafeRevertSeq (revertModification ls m) ms

instance instDecSafeRevertSeq :
    (ls : List BufferLine) → (ms : List Modification) →
      Decidable (SafeRevertSeq ls ms)
  | _, [] => .isTrue trivial
  | ls, m :: ms =>
    have : Decidable (SafeRevertSeq (revertModification ls m) ms) :=
      instDecSafeRevertSeq _ ms
    decidable_of_iff (SafeRevertMod ls m ∧
      SafeRevertSeq (revertModification ls m) ms) (by simp [SafeRevertSeq])

/-- Each primitive in the sequence replays safely on the store it meets. -/
def SafeApplySeq : List BufferLine → List Modification → Prop
  | _, [] => True
  | ls, m :: ms =>
    SafeApplyMod ls m ∧ SafeApplySeq (applyModification ls m) ms

instance instDecSafeApplySeq :
    (ls : List BufferLine) → (ms : List Modification) →
      Decidable (SafeApplySeq ls ms)
  | _, [] => .isTrue trivial
  | ls, m :: ms =>
    have : Decidable (SafeApplySeq (applyModification ls m) ms) :=
      instDecSafeApplySeq _ ms
    decidable_of_iff (SafeApplyMod ls m ∧
      SafeApplySeq (applyModification ls m) ms) (by simp [SafeApplySeq])

/-!
## Claim theorems: concrete scenarios and error handling
-/

/-- C10: a default-constructed `BufferIterator` holds no buffer reference
(its buffer pointer is null), `is_valid()` reports false for it, and using it
as a position (dereferencing) is the invalid-position error case even though
no buffer was ever destroyed. -/
theorem C10_default_iterator_invalid :
    BufferIterator.mkDefault.m_buffer = none ∧
    BufferIterator.mkDefault.is_valid = false ∧
    BufferIterator.mkDefault.deref = none :=
  ⟨rfl, rfl, rfl⟩

/-- C1 counterexample: in the stated scenario (buffer `"ab\ncd\n"`, insert
`"X\n"` at (0,1)) the resulting lines are exactly `["aX\n","b\n","cd\n"]`, yet
`character_count()` evaluates to 8, not the claimed 9 (the scenario's text
holds 8 bytes). -/
theorem C1_counterexample :
    ((mkBuffer ['a','b','\n','c','d','\n']).insert ⟨0,1⟩ ['X','\n']).1.lines.map
        BufferLine.content = [['a','X','\n'], ['b','\n'], ['c','d','\n']] ∧
    ((mkBuffer ['a','b','\n','c','d','\n']).insert ⟨0,1⟩ ['X','\n']).1.character_count = 8 ∧
    ((mkBuffer ['a','b','\n','c','d','\n']).insert ⟨0,1⟩ ['X','\n']).1.character_count ≠ 9 := by
  decide

/-- C1 amended: the scenario as claimed, with the character count corrected
from 9 to 8: starting from `"ab\ncd\n"`, inserting `"X\n"` at (0,1) yields the
lines `["aX\n","b\n","cd\n"]` with `character_count()` = 8; erasing from (0,0)
to (1,0) yields `["b\n","cd\n"]`; one `undo()` restores the 3-line state, a
second restores the original 2-line state, and two `redo()` calls restore the
erased 2-line state. -/
theorem C1_amended_scenario :
    (((mkBuffer ['a','b','\n','c','d','\n']).insert ⟨0,1⟩ ['X','\n']).2 = none ∧
     ((mkBuffer ['a','b','\n','c','d','\n']).insert ⟨0,1⟩ ['X','\n']).1.lines.map
        BufferLine.content = [['a','X','\n'], ['b','\n'], ['c','d','\n']] ∧
     ((mkBuffer ['a','b','\n','c','d','\n']).insert ⟨0,1⟩ ['X','\n']).1.character_count = 8) ∧
    ((((mkBuffer ['a','b','\n','c','d','\n']).insert ⟨0,1⟩ ['X','\n']).1.erase ⟨0,0⟩ ⟨1,0⟩).2
        = none ∧
     ((((mkBuffer ['a','b','\n','c','d','\n']).insert ⟨0,1⟩ ['X','\n']).1.erase ⟨0,0⟩
        ⟨1,0⟩).1.lines.map BufferLine.content = [['b','\n'], ['c','d','\n']]) ∧
     ((((mkBuffer ['a','b','\n','c','d','\n']).insert ⟨0,1⟩ ['X','\n']).1.erase ⟨0,0⟩
        ⟨1,0⟩).1.undo.2 = true ∧
      (((mkBuffer ['a','b','\n','c','d','\n']).insert ⟨0,1⟩ ['X','\n']).1.erase ⟨0,0⟩
        ⟨1,0⟩).1.undo.1.lines.map BufferLine.content
        = [['a','X','\n'], ['b','\n'], ['c','d','\n']]) ∧
     ((((mkBuffer ['a','b','\n','c','d','\n']).insert ⟨0,1⟩ ['X','\n']).1.erase ⟨0,0⟩
        ⟨1,0⟩).1.undo.1.undo.2 = true ∧
      (((mkBuffer ['a','b','\n','c','d','\n']).insert ⟨0,1⟩ ['X','\n']).1.erase ⟨0,0⟩
        ⟨1,0⟩).1.undo.1.undo.1.lines.map BufferLine.content
        = [['a','b','\n'], ['c','d','\n']]) ∧
     ((((mkBuffer ['a','b','\n','c','d','\n']).insert ⟨0,1⟩ ['X','\n']).1.erase ⟨0,0⟩
        ⟨1,0⟩).1.undo.1.undo.1.redo.1.redo.2 = true ∧
      (((mkBuffer ['a','b','\n','c','d','\n']).insert ⟨0,1⟩ ['X','\n']).1.erase ⟨0,0⟩
        ⟨1,0⟩).1.undo.1.undo.1.redo.1.redo.1.lines.map BufferLine.content
        = [['b','\n'], ['c','d','\n']])) := by
  decide

/-- C2 counterexample: the invariant is not preserved by every valid-argument
mutation.  From the buffer `"ab\ncd\n"` (which satisfies the invariant), the
coordinate (0,3) is valid (line 0 exists and 3 ≤ its length), the insert of
`"X\n"` there succeeds — and the resulting line store has the empty content
`[]` as its second of three lines, a non-final line that does not end with a
line terminator, so the invariant is violated. -/
theorem C2_counterexample :
    BufInv (mkBuffer ['a','b','\n','c','d','\n']).lines ∧
    validCoord (mkBuffer ['a','b','\n','c','d','\n']).lines ⟨0,3⟩ ∧
    ((mkBuffer ['a','b','\n','c','d','\n']).insert ⟨0,3⟩ ['X','\n']).2 = none ∧
    ((mkBuffer ['a','b','\n','c','d','\n']).insert ⟨0,3⟩ ['X','\n']).1.lines.map
        BufferLine.content = [['a','b','\n','X','\n'], [], ['c','d','\n']] ∧
    ¬ BufInv ((mkBuffer ['a','b','\n','c','d','\n']).insert ⟨0,3⟩ ['X','\n']).1.lines := by
  decide

/-- C5: `insert` and `erase` fail with the out-of-range error exactly when an
argument coordinate is invalid for the current buffer state, and a failing
call returns the buffer exactly as it was (content, history, line index — the
whole state — untouched); with valid coordinates they do not fail (and never
clamp). -/
theorem C5_mutation_validation :
    (∀ (b : Buffer) (p : BufferCoord) (s : List Char),
        ¬ validCoord b.lines p → b.insert p s = (b, some .outOfRange)) ∧
    (∀ (b : Buffer) (p : BufferCoord) (s : List Char),
        validCoord b.lines p → (b.insert p s).2 = none) ∧
    (∀ (b : Buffer) (p q : BufferCoord),
        ¬ (validCoord b.lines p ∧ validCoord b.lines q) →
        b.erase p q = (b, some .outOfRange)) ∧
    (∀ (b : Buffer) (p q : BufferCoord),
        validCoord b.lines p → validCoord b.lines q → (b.erase p q).2 = none) := by
  refine ⟨?_, ?_, ?_, ?_⟩
  · intro b p s h; simp [Buffer.insert, h]
  · intro b p s h; simp [Buffer.insert, h, recordModification]
  · intro b p q h; simp [Buffer.erase, h]
  · intro b p q hp hq; simp [Buffer.erase, hp, hq, recordModification]

/-- C5 witness: a concrete failing insert (line 9 does not exist in a fresh
one-line buffer) returns the out-of-range error and the unchanged buffer. -/
theorem C5_witness :
    (mkBuffer ['\n']).insert ⟨9,0⟩ ['a'] = (mkBuffer ['\n'], some .outOfRange) :=
  C5_mutation_validation.1 (mkBuffer ['\n']) ⟨9,0⟩ ['a'] (by decide)

/-- C9 counterexample: `is_modified()` is not true after every committed
edit.  Construct `"\n"`, insert twice, `notify_saved()` (cursor 2 recorded),
`undo()` once (cursor 1), then commit a fresh insert: the commit discards the
redo group and moves the cursor to 2 — exactly the saved index — so
`is_modified()` reports false immediately after a committed edit. -/
theorem C9_counterexample :
    ((((mkBuffer ['\n']).insert ⟨0,0⟩ ['a']).1.insert ⟨0,0⟩
        ['b']).1.notify_saved.undo.1.insert ⟨0,0⟩ ['c']).2 = none ∧
    ((((mkBuffer ['\n']).insert ⟨0,0⟩ ['a']).1.insert ⟨0,0⟩
        ['b']).1.notify_saved.undo.1.insert ⟨0,0⟩ ['c']).1.is_modified = false := by
  decide

/-- C9 amended: `is_modified()` is false immediately after construction and
immediately after `notify_saved()`; it is false exactly when the history
cursor equals the position recorded at the last `notify_saved()` (comparison
by cursor position, not content); and it is true after a committed edit
except when that edit discarded redo groups and thereby landed the cursor
exactly on the saved index. -/
theorem C9_amended :
    (∀ s : List Char, (mkBuffer s).is_modified = false) ∧
    (∀ b : Buffer, b.notify_saved.is_modified = false) ∧
    (∀ b : Buffer, b.is_modified = false ↔ b.historyCursor = b.lastSaveUndoIndex) ∧
    (∀ (b : Buffer) (p : BufferCoord) (s : List Char),
        (b.insert p s).2 = none →
        (b.insert p s).1.historyCursor ≠ (b.insert p s).1.lastSaveUndoIndex →
        (b.insert p s).1.is_modified = true) := by
  refine ⟨?_, ?_, ?_, ?_⟩
  · intro s; simp [mkBuffer, Buffer.is_modified]
  · intro b; simp [Buffer.notify_saved, Buffer.is_modified]
  · intro b; simp [Buffer.is_modified]
  · intro b p s _ h; simpa [Buffer.is_modified] using h

/-- C9 witness: a concrete committed edit away from the saved index reports
the buffer modified. -/
theorem C9_witness :
    ((mkBuffer ['\n']).insert ⟨0,0⟩ ['a']).1.is_modified = true :=
  C9_amended.2.2.2 (mkBuffer ['\n']) ⟨0,0⟩ ['a'] (by decide) (by decide)

/-!
## Structure of content splitting
-/

/-- Reassembling the full segments and the leftover gives back the content. -/
theorem splitContent_flatten (s : List Char) :
    (splitContent s).1.flatten ++ (splitContent s).2 = s := by
  induction s with
  | nil => rfl
  | cons c rest ih =>
    simp only [splitContent]
    by_cases hc : c = '\n'
    · subst hc; simpa using ih
    · rcases h : (splitContent rest).1 with _ | ⟨f, fs⟩ <;>
        rw [h] at ih <;> simp_all

/-- The number of full segments equals the number of terminators. -/
theorem splitContent_count (s : List Char) :
    (splitContent s).1.length = s.count '\n' := by
  induction s with
  | nil => rfl
  | cons c rest ih =>
    simp only [splitContent]
    by_cases hc : c = '\n'
    · subst hc; simp [List.count_cons, ih]
    · rcases h : (splitContent rest).1 with _ | ⟨f, fs⟩ <;>
        rw [h] at ih <;> simp_all [List.count_cons]

/-- Every full segment is terminator-free text followed by one terminator. -/
theorem splitContent_fst_shape (s : List Char) :
    ∀ f ∈ (splitContent s).1, ∃ u, f = u ++ ['\n'] ∧ '\n' ∉ u := by
  induction s with
  | nil => intro f hf; simp [splitContent] at hf
  | cons c rest ih =>
    intro f hf
    simp only [splitContent] at hf
    by_cases hc : c = '\n'
    · subst hc; simp at hf
      rcases hf with hf | hf
      · exact ⟨[], by simp [hf]⟩
      · exact ih f hf
    · rcases h : (splitContent rest).1 with _ | ⟨g, gs⟩ <;> rw [h] at hf
      · simp [hc] at hf
      · simp [hc] at hf
        rcases hf with hf | hf
        · obtain ⟨u, hu, hnu⟩ := ih g (by rw [h]; exact List.mem_cons_self g gs)
          refine ⟨c :: u, by subst hf; simp [hu], ?_⟩
          simp only [List.mem_cons, not_or]
          exact ⟨fun hh => hc hh.symm, hnu⟩
        · exact ih f (by rw [h]; exact List.mem_cons_of_mem g hf)

/-- The leftover after the last terminator holds no terminator. -/
theorem splitContent_snd_noNL (s : List Char) : '\n' ∉ (splitContent s).2 := by
  induction s with
  | nil => simp [splitContent]
  | cons c rest ih =>
    simp only [splitContent]
    by_cases hc : c = '\n'
    · subst hc; simpa using ih
    · rcases h : (splitContent rest).1 with _ | ⟨f, fs⟩
      · simp only [if_neg hc]
        intro hmem
        rcases List.mem_cons.1 hmem with hh | hh
        · exact hc hh.symm
        · exact ih hh
      · simp only [if_neg hc]
        exact ih

/-- Terminator-free content splits into no full segment and itself. -/
theorem splitContent_noNL (s : List Char) (h : '\n' ∉ s) :
    splitContent s = ([], s) := by
  induction s with
  | nil => rfl
  | cons c rest ih =>
    simp only [List.mem_cons, not_or] at h
    simp only [splitContent, if_neg (Ne.symm h.1)]
    rw [ih h.2]

/-- Splitting content that starts with a terminator-ended segment peels that
segment off. -/
theorem splitContent_seg (u : List Char) (hu : '\n' ∉ u) (rest : List Char) :
    splitContent (u ++ '\n' :: rest) =
      ((u ++ ['\n']) :: (splitContent rest).1, (splitContent rest).2) := by
  induction u with
  | nil => simp [splitContent]
  | cons c cs ih =>
    simp only [List.mem_cons, not_or] at hu
    have h2 := ih hu.2
    rw [List.cons_append]
    show (let p := splitContent (cs ++ '\n' :: rest);
          if c = '\n' then ([c] :: p.1, p.2)
          else
            match p.1 with
            | [] => ([], c :: p.2)
            | f :: fs => ((c :: f) :: fs, p.2)) = _
    rw [h2]
    simp [Ne.symm hu.1]

/-- The line of the insertion-end coordinate advances by the number of
terminators inserted. -/
theorem insertEnd_line (p : BufferCoord) (s : List Char) :
    (insertEnd p s).line = p.line + s.count '\n' := by
  unfold insertEnd
  rcases h : splitContent s with ⟨fs, r⟩
  have := splitContent_count s
  rw [h] at this
  rcases fs with _ | ⟨f, fs⟩ <;> simp_all

/-- Insertion of terminator-free content ends on the same line, advanced by
the byte count. -/
theorem insertEnd_noNL (p : BufferCoord) (s : List Char) (h : '\n' ∉ s) :
    insertEnd p s = ⟨p.line, p.column + s.length⟩ := by
  unfold insertEnd
  rw [splitContent_noNL s h]

/-!
## Claim theorems: clamping, undo/redo boundaries, position adjustment
-/

/-- C7: `clamp(coord, avoid_eol)` clamps the line into `[0, line_count()-1]`
and the column into `[0, length(line)]`; with `avoid_eol` set, on a non-empty
line whose content is `u ++ ['\n']` a column pointing at the trailing
terminator (at or past index `length − 1 = u.length`) comes back as
`length − 1`, and on an empty line (content `[]` or just the terminator) the
column comes back as 0. -/
theorem C7_clamp (b : Buffer) (p : BufferCoord) (ae : Bool) :
    (b.clamp p ae).line = min p.line (b.line_count - 1) ∧
    (b.clamp p ae).line ≤ b.line_count - 1 ∧
    (b.clamp p ae).column ≤ b.line_length (b.clamp p ae).line ∧
    (ae = true →
      ∀ u : List Char,
        (b.lines.getD (min p.line (b.line_count - 1)) default).content = u ++ ['\n'] →
        u ≠ [] → u.length ≤ p.column →
        (b.clamp p ae).column = u.length) ∧
    (ae = true →
      ((b.lines.getD (min p.line (b.line_count - 1)) default).content = [] ∨
       (b.lines.getD (min p.line (b.line_count - 1)) default).content = ['\n']) →
      (b.clamp p ae).column = 0) := by
  have hline : (b.clamp p ae).line = min p.line (b.line_count - 1) := rfl
  refine ⟨rfl, Nat.min_le_right _ _, ?_, ?_, ?_⟩
  · rw [hline]
    show (if _ ∧ _ ∧ _ then _ else _) ≤ _
    split <;> omega
  · intro hae u hu hne hcol
    have hNL : endsNL (b.lines.getD (min p.line (b.line_count - 1)) default).content := by
      rw [hu]; exact List.getLast?_concat u
    have hlen : b.line_length (min p.line (b.line_count - 1)) = u.length + 1 := by
      show (b.lines.getD _ default).content.length = _
      rw [hu]; simp
    have hupos : 0 < u.length := List.length_pos.2 hne
    show (if _ ∧ _ ∧ _ then _ else _) = _
    split
    · omega
    · rename_i h
      have hne2 : ¬ (min p.column (b.line_length (min p.line (b.line_count - 1))) =
          b.line_length (min p.line (b.line_count - 1))) := fun hmin => h ⟨hae, hNL, hmin⟩
      omega
  · intro hae hor
    rcases hor with hc | hc
    · have hlen : b.line_length (min p.line (b.line_count - 1)) = 0 := by
        show (b.lines.getD _ default).content.length = _
        rw [hc]; rfl
      show (if _ ∧ _ ∧ _ then _ else _) = _
      split <;> omega
    · have hNL : endsNL (b.lines.getD (min p.line (b.line_count - 1)) default).content := by
        rw [hc]; rfl
      have hlen : b.line_length (min p.line (b.line_count - 1)) = 1 := by
        show (b.lines.getD _ default).content.length = _
        rw [hc]; rfl
      show (if _ ∧ _ ∧ _ then _ else _) = _
      split
      · omega
      · rename_i h
        have hne2 : ¬ (min p.column (b.line_length (min p.line (b.line_count - 1))) =
            b.line_length (min p.line (b.line_count - 1))) := fun hmin => h ⟨hae, hNL, hmin⟩
        omega

/-- C7 witness: clamping column 7 on the line `"ab\n"` with `avoid_eol`
returns column 2 (= length − 1), and on the empty line `"\n"` returns 0. -/
theorem C7_witness :
    ((mkBuffer ['a','b','\n']).clamp ⟨0,7⟩ true).column = ['a','b'].length ∧
    ((mkBuffer ['\n']).clamp ⟨0,7⟩ true).column = 0 :=
  ⟨(C7_clamp (mkBuffer ['a','b','\n']) ⟨0,7⟩ true).2.2.2.1 rfl ['a','b'] (by decide)
      (by decide) (by decide),
   (C7_clamp (mkBuffer ['\n']) ⟨0,7⟩ true).2.2.2.2 rfl (Or.inr (by decide))⟩

/-- C6: `undo()` with the history cursor at the start of history fails and
leaves the buffer unchanged, arbitrarily often; `redo()` with the cursor at
the end of history fails and leaves the buffer unchanged; a non-failing
`undo()` decrements the cursor and applies the inverses of the group's
primitives in reverse order (last-edited-first); a non-failing `redo()`
re-applies the group's primitives in original order and advances the
cursor. -/
theorem C6_undo_redo_boundary :
    (∀ b : Buffer, b.historyCursor = 0 → b.undo = (b, false)) ∧
    (∀ b : Buffer, b.historyCursor = 0 →
        ∀ n : Nat, (fun x : Buffer => x.undo.1)^[n] b = b) ∧
    (∀ b : Buffer, b.historyCursor = b.history.length → b.redo = (b, false)) ∧
    (∀ b : Buffer, b.historyCursor ≠ 0 →
        b.undo.2 = true ∧ b.undo.1.historyCursor = b.historyCursor - 1 ∧
        b.undo.1.lines = (b.history.getD (b.historyCursor - 1) []).foldr
          (fun m ls => revertModification ls m) b.lines) ∧
    (∀ b : Buffer, b.historyCursor < b.history.length →
        b.redo.2 = true ∧ b.redo.1.historyCursor = b.historyCursor + 1 ∧
        b.redo.1.lines = (b.history.getD b.historyCursor []).foldl
          applyModification b.lines) := by
  refine ⟨?_, ?_, ?_, ?_, ?_⟩
  · intro b h; simp [Buffer.undo, h]
  · intro b h n
    apply Function.iterate_fixed
    simp [Buffer.undo, h]
  · intro b h; simp [Buffer.redo, h]
  · intro b h
    refine ⟨by simp [Buffer.undo, h], by simp [Buffer.undo, h], ?_⟩
    simp only [Buffer.undo, if_neg h]
    exact List.foldl_reverse _ _ _
  · intro b h
    have h2 : ¬ (b.history.length ≤ b.historyCursor) := Nat.not_le.2 h
    exact ⟨by simp [Buffer.redo, h2], by simp [Buffer.redo, h2],
           by simp [Buffer.redo, h2]⟩

/-- C6 witness: in a fresh buffer `undo()` fails and changes nothing; after
one committed edit the cursor is 1 and `undo()` reports success with the
cursor back at 0. -/
theorem C6_witness :
    (mkBuffer ['\n']).undo = (mkBuffer ['\n'], false) ∧
    ((mkBuffer ['\n']).insert ⟨0,0⟩ ['a']).1.undo.2 = true ∧
    ((mkBuffer ['\n']).insert ⟨0,0⟩ ['a']).1.undo.1.historyCursor = 0 :=
  ⟨C6_undo_redo_boundary.1 (mkBuffer ['\n']) rfl,
   (C6_undo_redo_boundary.2.2.2.1 ((mkBuffer ['\n']).insert ⟨0,0⟩ ['a']).1
      (by decide)).1,
   (C6_undo_redo_boundary.2.2.2.1 ((mkBuffer ['\n']).insert ⟨0,0⟩ ['a']).1
      (by decide)).2.1⟩

/-- C8: the `on_insert` coordinate transform, for an insertion of `s` at
`bg` with post-edit end `insertEnd bg s`: a cached coordinate strictly
before `bg` is unchanged; one on a line strictly after `bg`'s line gains the
number of terminators inserted and keeps its column; one on `bg`'s line
at/after `bg`'s column shifts its column by the inserted byte count for a
terminator-free insertion, and for a multi-line insertion gains the number of
terminators on its line with the column rebased relative to the inserted
content's last line.  Concretely, a Position at (1,1) stays at (1,1) when
told of the single-byte insertion ((0,0),(0,1)), and moves to (2,1) when told
of an insertion of `"X\n"` at (0,0). -/
theorem C8_on_insert (p bg : BufferCoord) (s : List Char) :
    (coordLt p bg = true → onInsert p bg (insertEnd bg s) = p) ∧
    (bg.line < p.line →
        onInsert p bg (insertEnd bg s) = ⟨p.line + s.count '\n', p.column⟩) ∧
    (p.line = bg.line → bg.column ≤ p.column → s.count '\n' = 0 →
        onInsert p bg (insertEnd bg s) = ⟨p.line, p.column + s.length⟩) ∧
    (p.line = bg.line → bg.column ≤ p.column → s.count '\n' ≠ 0 →
        onInsert p bg (insertEnd bg s) =
          ⟨p.line + s.count '\n',
           (insertEnd bg s).column + (p.column - bg.column)⟩) ∧
    onInsert ⟨1,1⟩ ⟨0,0⟩ ⟨0,1⟩ = ⟨1,1⟩ ∧
    onInsert ⟨1,1⟩ ⟨0,0⟩ (insertEnd ⟨0,0⟩ ['X','\n']) = ⟨2,1⟩ := by
  refine ⟨?_, ?_, ?_, ?_, by decide, by decide⟩
  · intro h; simp [onInsert, h]
  · intro h
    have hlt : ¬ (coordLt p bg = true) := by
      intro hcontra; simp [coordLt] at hcontra; omega
    have hne : p.line ≠ bg.line := by omega
    unfold onInsert
    rw [if_neg hlt, if_neg hne, insertEnd_line]
    congr 1
    omega
  · intro h1 h2 h3
    have hnoNL : '\n' ∉ s := List.count_eq_zero.1 h3
    have hlt : ¬ (coordLt p bg = true) := by
      intro hcontra; simp [coordLt] at hcontra; omega
    rw [insertEnd_noNL bg s hnoNL]
    unfold onInsert
    rw [if_neg hlt, if_pos h1, if_pos rfl]
    congr 1
    show p.column + (bg.column + s.length - bg.column) = p.column + s.length
    omega
  · intro h1 h2 h3
    have hlt : ¬ (coordLt p bg = true) := by
      intro hcontra; simp [coordLt] at hcontra; omega
    have hlineEq := insertEnd_line bg s
    have hne : (insertEnd bg s).line ≠ bg.line := by omega
    unfold onInsert
    rw [if_neg hlt, if_pos h1, if_neg hne, hlineEq]
    congr 1
    omega

/-- C8 witness: a coordinate at (0,5), told of a two-byte terminator-free
insertion at (0,2), shifts to (0,7). -/
theorem C8_witness :
    onInsert ⟨0,5⟩ ⟨0,2⟩ (insertEnd ⟨0,2⟩ ['x','y']) = ⟨0,7⟩ :=
  (C8_on_insert ⟨0,5⟩ ⟨0,2⟩ ['x','y']).2.2.1 rfl (by decide) (by decide)

/-!
## Helper lemmas: rebuilt line runs and list surgery
-/

theorem sumLens_nil : sumLens [] = 0 := rfl

theorem sumLens_cons (c : List Char) (cs : List (List Char)) :
    sumLens (c :: cs) = c.length + sumLens cs := by
  simp [sumLens]

theorem sumLens_append (xs ys : List (List Char)) :
    sumLens (xs ++ ys) = sumLens xs + sumLens ys := by
  simp [sumLens]

theorem linesFrom_map_content (a : Nat) (cs : List (List Char)) :
    (linesFrom a cs).map BufferLine.content = cs := by
  induction cs generalizing a with
  | nil => rfl
  | cons c cs ih => simp [linesFrom, ih]

theorem linesFrom_length (a : Nat) (cs : List (List Char)) :
    (linesFrom a cs).length = cs.length := by
  induction cs generalizing a with
  | nil => rfl
  | cons c cs ih => simp [linesFrom, ih]

theorem linesFrom_append (a : Nat) (xs ys : List (List Char)) :
    linesFrom a (xs ++ ys) = linesFrom a xs ++ linesFrom (a + sumLens xs) ys := by
  induction xs generalizing a with
  | nil => simp [linesFrom, sumLens_nil]
  | cons x xs ih =>
    rw [List.cons_append]
    show (⟨a, x⟩ : BufferLine) :: linesFrom (a + x.length) (xs ++ ys) =
      ((⟨a, x⟩ : BufferLine) :: linesFrom (a + x.length) xs) ++
        linesFrom (a + sumLens (x :: xs)) ys
    rw [ih, sumLens_cons, ← Nat.add_assoc]
    rfl

theorem linesFrom_take (a : Nat) (cs : List (List Char)) (k : Nat) :
    (linesFrom a cs).take k = linesFrom a (cs.take k) := by
  induction cs generalizing a k with
  | nil => simp [linesFrom]
  | cons c cs ih =>
    cases k with
    | zero => rfl
    | succ k => simp [linesFrom, ih]

theorem linesFrom_drop (a : Nat) (cs : List (List Char)) (k : Nat) :
    (linesFrom a cs).drop k = linesFrom (a + sumLens (cs.take k)) (cs.drop k) := by
  induction cs generalizing a k with
  | nil => simp [linesFrom, sumLens_nil]
  | cons c cs ih =>
    cases k with
    | zero => simp [sumLens_nil]
    | succ k =>
      simp only [linesFrom, List.drop_succ_cons, List.take_succ_cons, sumLens_cons, ih]
      rw [Nat.add_assoc]

theorem getD_append_left {α : Type} [Inhabited α] (xs ys : List α) (n : Nat)
    (h : n < xs.length) : (xs ++ ys).getD n default = xs.getD n default := by
  induction xs generalizing n with
  | nil => simp at h
  | cons x xs ih =>
    cases n with
    | zero => rfl
    | succ n =>
      simp only [List.cons_append, List.getD_cons_succ]
      exact ih n (by simpa using h)

theorem getD_append_right {α : Type} (xs ys : List α) (n : Nat) (d : α) :
    (xs ++ ys).getD (xs.length + n) d = ys.getD n d := by
  induction xs with
  | nil => simp
  | cons x xs ih =>
    rw [List.cons_append, List.length_cons,
      show xs.length + 1 + n = (xs.length + n) + 1 from by omega,
      List.getD_cons_succ]
    exact ih

theorem linesFrom_getD (a : Nat) (cs : List (List Char)) (k : Nat)
    (h : k < cs.length) :
    (linesFrom a cs).getD k default =
      ⟨a + sumLens (cs.take k), cs.getD k []⟩ := by
  induction cs generalizing a k with
  | nil => simp at h
  | cons c cs ih =>
    cases k with
    | zero => simp [linesFrom, sumLens_nil]
    | succ k =>
      simp only [linesFrom, List.getD_cons_succ, List.take_succ_cons, sumLens_cons]
      rw [ih (a + c.length) k (by simpa using h), Nat.add_assoc]

theorem getD_cons_drop {α : Type} (xs : List α) (k : Nat) (d : α)
    (h : k < xs.length) : xs.getD k d :: xs.drop (k + 1) = xs.drop k := by
  induction xs generalizing k with
  | nil => simp at h
  | cons x xs ih =>
    cases k with
    | zero => rfl
    | succ k =>
      simp only [List.getD_cons_succ, List.drop_succ_cons]
      exact ih k (by simpa using h)

/-!
## Canonical offsets and the invariant characterization
-/

theorem canonFrom_linesFrom (a : Nat) (cs : List (List Char)) :
    canonFrom a (linesFrom a cs) := by
  unfold canonFrom
  rw [linesFrom_map_content]

theorem canonFrom_cons (a : Nat) (x : BufferLine) (xs : List BufferLine) :
    canonFrom a (x :: xs) ↔ x.start = a ∧ canonFrom (a + x.len) xs := by
  unfold canonFrom
  constructor
  · intro h
    simp only [List.map_cons, linesFrom] at h
    obtain ⟨h1, h2⟩ := List.cons.inj h
    exact ⟨by rw [h1], by rw [show x.len = x.content.length from rfl]; exact h2⟩
  · rintro ⟨h1, h2⟩
    subst h1
    show x :: xs = linesFrom x.start (List.map BufferLine.content (x :: xs))
    simp only [List.map_cons, linesFrom]
    have hx : x = (⟨x.start, x.content⟩ : BufferLine) := by cases x; rfl
    conv_lhs => rw [hx, h2]
    rfl

theorem canonFrom_consec (a : Nat) (ls : List BufferLine)
    (h : canonFrom a ls) : consecStarts ls := by
  induction ls generalizing a with
  | nil => trivial
  | cons x xs ih =>
    rw [canonFrom_cons] at h
    cases xs with
    | nil => trivial
    | cons y ys =>
      have h2 := h.2
      have hy := (canonFrom_cons _ _ _).1 h2
      exact ⟨by rw [hy.1, h.1], ih _ h2⟩

theorem consec_canon (ls : List BufferLine) (h : consecStarts ls) :
    canonFrom ((ls.headD default).start) ls := by
  induction ls with
  | nil => rfl
  | cons x xs ih =>
    cases xs with
    | nil =>
      rw [canonFrom_cons]
      exact ⟨rfl, rfl⟩
    | cons y ys =>
      obtain ⟨h1, h2⟩ := h
      rw [canonFrom_cons]
      refine ⟨rfl, ?_⟩
      have := ih h2
      simpa [List.headD, ← h1] using this

theorem charCountOf_linesFrom (a : Nat) (cs : List (List Char)) (h : cs ≠ []) :
    charCountOf (linesFrom a cs) = a + sumLens cs := by
  induction cs generalizing a with
  | nil => exact absurd rfl h
  | cons c cs ih =>
    cases cs with
    | nil => simp [linesFrom, charCountOf, BufferLine.len, sumLens]
    | cons c2 cs2 =>
      have hne : (c2 :: cs2) ≠ [] := by simp
      have step := ih (a := a + c.length) hne
      have hcons : charCountOf (linesFrom a (c :: c2 :: cs2)) =
          charCountOf (linesFrom (a + c.length) (c2 :: cs2)) := by
        show charCountOf (⟨a, c⟩ :: ⟨a + c.length, c2⟩ ::
            linesFrom (a + c.length + c2.length) cs2) =
          charCountOf (⟨a + c.length, c2⟩ ::
            linesFrom (a + c.length + c2.length) cs2)
        unfold charCountOf
        rw [List.getLast?_cons_cons]
      calc charCountOf (linesFrom a (c :: c2 :: cs2))
          = charCountOf (linesFrom (a + c.length) (c2 :: cs2)) := hcons
        _ = a + c.length + sumLens (c2 :: cs2) := step
        _ = a + sumLens (c :: c2 :: cs2) := by
              rw [sumLens_cons c (c2 :: cs2)]; omega

/-- The invariant, in canonical-offset form: the store is nonempty, the
contents are well formed, and the offsets are exactly the forward scan from
0. -/
theorem BufInv_iff (ls : List BufferLine) :
    BufInv ls ↔
      ls ≠ [] ∧ linesOK (ls.map BufferLine.content) ∧ canonFrom 0 ls := by
  constructor
  · rintro ⟨h1, h2, h3, h4⟩
    refine ⟨h1, h2, ?_⟩
    have hc := consec_canon ls h3
    have hmapne : ls.map BufferLine.content ≠ [] := by
      simpa using h1
    have hcount : charCountOf ls =
        (ls.headD default).start + sumLens (ls.map BufferLine.content) := by
      conv_lhs => rw [hc]
      exact charCountOf_linesFrom _ _ hmapne
    have hstart : (ls.headD default).start = 0 := by omega
    rwa [hstart] at hc
  · rintro ⟨h1, h2, h3⟩
    refine ⟨h1, h2, canonFrom_consec 0 ls h3, ?_⟩
    have hmapne : ls.map BufferLine.content ≠ [] := by simpa using h1
    conv_lhs => rw [h3]
    rw [charCountOf_linesFrom _ _ hmapne]
    omega

/-- The common shape of both mutations: a kept front plus a rebuilt tail
starting at the edited line's stored offset preserves canonical offsets. -/
theorem canon_surgery (ls : List BufferLine) (l : Nat) (X : List (List Char))
    (hc : canonFrom 0 ls) (hl : l < ls.length) :
    canonFrom 0 (ls.take l ++ linesFrom ((ls.getD l default).start) X) := by
  have htake : ls.take l = linesFrom 0 ((ls.map BufferLine.content).take l) := by
    conv_lhs => rw [hc]
    exact linesFrom_take _ _ _
  have hstart : (ls.getD l default).start =
      sumLens ((ls.map BufferLine.content).take l) := by
    conv_lhs => rw [hc]
    rw [linesFrom_getD 0 _ l (by simpa using hl)]
    simp
  rw [htake, hstart,
    show sumLens ((ls.map BufferLine.content).take l) =
      0 + sumLens ((ls.map BufferLine.content).take l) from by omega,
    ← linesFrom_append]
  exact canonFrom_linesFrom _ _

/-!
## Surgery helpers for the mutation proofs
-/

theorem do_insert_eq (ls : List BufferLine) (p : BufferCoord) (s : List Char) :
    do_insert ls p s =
      ls.take p.line ++ linesFrom (ls.getD p.line default).start
        (newContents (ls.getD p.line default).content p.column s ++
         (ls.drop (p.line + 1)).map BufferLine.content) := rfl

theorem do_erase_eq (ls : List BufferLine) (b e : BufferCoord) :
    do_erase ls b e =
      ls.take b.line ++ linesFrom (ls.getD b.line default).start
        (((ls.getD b.line default).content.take b.column ++
          (ls.getD e.line default).content.drop e.column) ::
         (ls.drop (e.line + 1)).map BufferLine.content) := rfl

theorem drop_append_len {α : Type} (xs ys : List α) (k : Nat) :
    (xs ++ ys).drop (xs.length + k) = ys.drop k := by
  induction xs with
  | nil => simp
  | cons x xs ih => simpa [Nat.succ_add] using ih

theorem take_append_len {α : Type} (xs ys : List α) : (xs ++ ys).take xs.length = xs := by
  induction xs with
  | nil => simp
  | cons x xs ih => simpa using ih

theorem take_append_of_len {α : Type} (xs ys : List α) (n : Nat) (h : xs.length = n) :
    (xs ++ ys).take n = xs := by
  subst h; exact take_append_len xs ys

theorem drop_append_of_len {α : Type} (xs ys : List α) (n : Nat) (h : xs.length = n) :
    (xs ++ ys).drop n = ys := by
  subst h
  simpa using drop_append_len xs ys 0

theorem map_drop' {α β : Type} (f : α → β) (xs : List α) (n : Nat) :
    (xs.drop n).map f = (xs.map f).drop n := by
  induction xs generalizing n with
  | nil => simp
  | cons x xs ih =>
    cases n with
    | zero => rfl
    | succ n => simpa using ih n

theorem map_take' {α β : Type} (f : α → β) (xs : List α) (n : Nat) :
    (xs.take n).map f = (xs.map f).take n := by
  induction xs generalizing n with
  | nil => simp
  | cons x xs ih =>
    cases n with
    | zero => rfl
    | succ n => simpa using ih n

theorem getD_map_content (ls : List BufferLine) (l : Nat) (h : l < ls.length) :
    (ls.map BufferLine.content).getD l [] = (ls.getD l default).content := by
  induction ls generalizing l with
  | nil => simp at h
  | cons x xs ih =>
    cases l with
    | zero => rfl
    | succ l =>
      simp only [List.map_cons, List.getD_cons_succ]
      exact ih l (by simpa using h)

theorem canon_getD_start (ls : List BufferLine) (l : Nat)
    (hc : canonFrom 0 ls) (hl : l < ls.length) :
    (ls.getD l default).start = sumLens ((ls.map BufferLine.content).take l) := by
  conv_lhs => rw [hc]
  rw [linesFrom_getD 0 _ l (by simpa using hl)]
  simp

theorem canon_take (ls : List BufferLine) (l : Nat) (hc : canonFrom 0 ls) :
    ls.take l = linesFrom 0 ((ls.map BufferLine.content).take l) := by
  conv_lhs => rw [hc]
  exact linesFrom_take 0 _ l

theorem surgery_getD (ls : List BufferLine) (l a : Nat) (X : List (List Char))
    (k : Nat) (hl : l ≤ ls.length) (hk : k < X.length) :
    (ls.take l ++ linesFrom a X).getD (l + k) default =
      ⟨a + sumLens (X.take k), X.getD k []⟩ := by
  have hlen : (ls.take l).length = l := by rw [List.length_take]; omega
  rw [show l + k = (ls.take l).length + k from by rw [hlen],
      getD_append_right, linesFrom_getD a X k hk]

theorem surgery_drop (ls : List BufferLine) (l a : Nat) (X : List (List Char))
    (k : Nat) (hl : l ≤ ls.length) :
    (ls.take l ++ linesFrom a X).drop (l + k) = (linesFrom a X).drop k := by
  have hlen : (ls.take l).length = l := by rw [List.length_take]; omega
  rw [show l + k = (ls.take l).length + k from by rw [hlen], drop_append_len]

theorem surgery_take (ls : List BufferLine) (l a : Nat) (X : List (List Char))
    (hl : l ≤ ls.length) :
    (ls.take l ++ linesFrom a X).take l = ls.take l := by
  have hlen : (ls.take l).length = l := by rw [List.length_take]; omega
  exact take_append_of_len _ _ _ hlen

theorem map_content_drop_linesFrom (a : Nat) (X : List (List Char)) (k : Nat) :
    ((linesFrom a X).drop k).map BufferLine.content = X.drop k := by
  rw [map_drop', linesFrom_map_content]

/-- Putting the edited line back in front of the untouched tail restores the
whole store, when offsets are canonical. -/
theorem take_linesFrom_restore (ls : List BufferLine) (l : Nat)
    (hc : canonFrom 0 ls) (hl : l < ls.length) :
    ls.take l ++ linesFrom ((ls.getD l default).start)
      ((ls.getD l default).content :: (ls.drop (l + 1)).map BufferLine.content)
      = ls := by
  have hlen : l < (ls.map BufferLine.content).length := by simpa using hl
  have hcontent : (ls.getD l default).content =
      (ls.map BufferLine.content).getD l [] := (getD_map_content ls l hl).symm
  have hrest : (ls.drop (l + 1)).map BufferLine.content =
      (ls.map BufferLine.content).drop (l + 1) := map_drop' _ _ _
  rw [hcontent, hrest, getD_cons_drop _ l [] hlen, canon_getD_start ls l hc hl,
      canon_take ls l hc,
      show sumLens ((ls.map BufferLine.content).take l) =
        0 + sumLens ((ls.map BufferLine.content).take l) from
        (Nat.zero_add _).symm,
      ← linesFrom_append, List.take_append_drop]
  exact hc.symm

theorem do_insert_at (ls : List BufferLine) (l c : Nat) (s : List Char) :
    do_insert ls ⟨l, c⟩ s =
      ls.take l ++ linesFrom (ls.getD l default).start
        (newContents (ls.getD l default).content c s ++
         (ls.drop (l + 1)).map BufferLine.content) := rfl

theorem do_erase_at (ls : List BufferLine) (bl bc el ec : Nat) :
    do_erase ls ⟨bl, bc⟩ ⟨el, ec⟩ =
      ls.take bl ++ linesFrom (ls.getD bl default).start
        (((ls.getD bl default).content.take bc ++
          (ls.getD el default).content.drop ec) ::
         (ls.drop (el + 1)).map BufferLine.content) := rfl

theorem getD_append_len {α : Type} (xs ys : List α) (d : α) :
    (xs ++ ys).getD xs.length d = ys.getD 0 d := by
  have h := getD_append_right xs ys 0 d
  simpa using h

theorem surgery_getD_zero (ls : List BufferLine) (l a : Nat)
    (X : List (List Char)) (hl : l ≤ ls.length) (hX : X ≠ []) :
    (ls.take l ++ linesFrom a X).getD l default = ⟨a, X.getD 0 []⟩ := by
  have h := surgery_getD ls l a X 0 hl (List.length_pos.2 hX)
  simpa [sumLens_nil] using h

theorem getD_mid (H : List Char) (fs : List (List Char)) (z : List Char)
    (restC : List (List Char)) :
    ((H :: (fs ++ [z])) ++ restC).getD (fs.length + 1) [] = z := by
  rw [List.cons_append, List.getD_cons_succ, List.append_assoc, getD_append_len]
  rfl

theorem drop_mid (H : List Char) (fs : List (List Char)) (z : List Char)
    (restC : List (List Char)) :
    ((H :: (fs ++ [z])) ++ restC).drop (fs.length + 2) = restC := by
  rw [List.cons_append,
      show fs.length + 2 = (fs ++ [z]).length + 1 from by simp,
      List.drop_succ_cons]
  exact drop_append_of_len _ _ _ rfl

/-- Inserting at a valid coordinate and then erasing exactly the inserted
span restores the line store, offsets included, for canonical stores. -/
theorem insert_erase_id (ls : List BufferLine) (p : BufferCoord) (s : List Char)
    (hc : canonFrom 0 ls) (hv : validCoord ls p) :
    do_erase (do_insert ls p s) p (insertEnd p s) = ls := by
  obtain ⟨l, c⟩ := p
  obtain ⟨hl, hcol⟩ := hv
  have hcol' : c ≤ (ls.getD l default).content.length := hcol
  have hfrontlen : ((ls.getD l default).content.take c).length = c := by
    rw [List.length_take]; omega
  have hle : l ≤ ls.length := Nat.le_of_lt hl
  rcases hsplit : splitContent s with ⟨F, r⟩
  cases F with
  | nil =>
    have hnewC : newContents (ls.getD l default).content c s =
        [(ls.getD l default).content.take c ++ s ++
         (ls.getD l default).content.drop c] := by
      unfold newContents
      rw [hsplit]
    have hpe : insertEnd ⟨l, c⟩ s = ⟨l, c + s.length⟩ := by
      unfold insertEnd
      rw [hsplit]
    rw [do_insert_at, hnewC, hpe, do_erase_at]
    have hg0 := surgery_getD_zero ls l ((ls.getD l default).start)
      ([(ls.getD l default).content.take c ++ s ++
        (ls.getD l default).content.drop c] ++
       (ls.drop (l + 1)).map BufferLine.content) hle (by simp)
    rw [hg0]
    have hdrop1 := surgery_drop ls l ((ls.getD l default).start)
      ([(ls.getD l default).content.take c ++ s ++
        (ls.getD l default).content.drop c] ++
       (ls.drop (l + 1)).map BufferLine.content) 1 hle
    rw [hdrop1, surgery_take ls l _ _ hle]
    dsimp only
    rw [show ([(ls.getD l default).content.take c ++ s ++
        (ls.getD l default).content.drop c] ++
        (ls.drop (l + 1)).map BufferLine.content).getD 0 [] =
        (ls.getD l default).content.take c ++ s ++
        (ls.getD l default).content.drop c from rfl]
    have hmtake : ((ls.getD l default).content.take c ++ s ++
        (ls.getD l default).content.drop c).take c =
        (ls.getD l default).content.take c := by
      rw [List.append_assoc]
      exact take_append_of_len _ _ _ hfrontlen
    have hmdrop : ((ls.getD l default).content.take c ++ s ++
        (ls.getD l default).content.drop c).drop (c + s.length) =
        (ls.getD l default).content.drop c := by
      apply drop_append_of_len
      rw [List.length_append, hfrontlen]
    rw [hmtake, hmdrop, List.take_append_drop]
    have htail : ((linesFrom ((ls.getD l default).start)
        ([(ls.getD l default).content.take c ++ s ++
          (ls.getD l default).content.drop c] ++
         (ls.drop (l + 1)).map BufferLine.content)).drop 1).map
          BufferLine.content = (ls.drop (l + 1)).map BufferLine.content := by
      rw [map_content_drop_linesFrom]
      rfl
    rw [htail]
    exact take_linesFrom_restore ls l hc hl
  | cons f fs =>
    have hnewC : newContents (ls.getD l default).content c s =
        ((ls.getD l default).content.take c ++ f) ::
          (fs ++ [r ++ (ls.getD l default).content.drop c]) := by
      unfold newContents
      rw [hsplit]
      rfl
    have hpe : insertEnd ⟨l, c⟩ s = ⟨l + (fs.length + 1), r.length⟩ := by
      unfold insertEnd
      rw [hsplit]
      rfl
    rw [do_insert_at, hnewC, hpe, do_erase_at]
    have hg0 := surgery_getD_zero ls l ((ls.getD l default).start)
      ((((ls.getD l default).content.take c ++ f) ::
        (fs ++ [r ++ (ls.getD l default).content.drop c])) ++
       (ls.drop (l + 1)).map BufferLine.content) hle (by simp)
    have hgmid := surgery_getD ls l ((ls.getD l default).start)
      ((((ls.getD l default).content.take c ++ f) ::
        (fs ++ [r ++ (ls.getD l default).content.drop c])) ++
       (ls.drop (l + 1)).map BufferLine.content) (fs.length + 1) hle
      (by simp)
    rw [hg0, hgmid]
    have hdropK := surgery_drop ls l ((ls.getD l default).start)
      ((((ls.getD l default).content.take c ++ f) ::
        (fs ++ [r ++ (ls.getD l default).content.drop c])) ++
       (ls.drop (l + 1)).map BufferLine.content) (fs.length + 2) hle
    rw [show l + (fs.length + 1) + 1 = l + (fs.length + 2) from by omega,
        hdropK, surgery_take ls l _ _ hle]
    dsimp only
    rw [getD_mid]
    rw [show ((((ls.getD l default).content.take c ++ f) ::
        (fs ++ [r ++ (ls.getD l default).content.drop c])) ++
        (ls.drop (l + 1)).map BufferLine.content).getD 0 [] =
        (ls.getD l default).content.take c ++ f from rfl]
    have hmtake : ((ls.getD l default).content.take c ++ f).take c =
        (ls.getD l default).content.take c :=
      take_append_of_len _ _ _ hfrontlen
    have hmdrop : (r ++ (ls.getD l default).content.drop c).drop r.length =
        (ls.getD l default).content.drop c :=
      drop_append_of_len _ _ _ rfl
    rw [hmtake, hmdrop, List.take_append_drop]
    have htail : ((linesFrom ((ls.getD l default).start)
        ((((ls.getD l default).content.take c ++ f) ::
          (fs ++ [r ++ (ls.getD l default).content.drop c])) ++
         (ls.drop (l + 1)).map BufferLine.content)).drop (fs.length + 2)).map
          BufferLine.content = (ls.drop (l + 1)).map BufferLine.content := by
      rw [map_content_drop_linesFrom]
      exact drop_mid _ _ _ _
    rw [htail]
    exact take_linesFrom_restore ls l hc hl

/-!
## Validity and canonicity across mutations; commit/undo/redo mechanics
-/

theorem canon_do_insert (ls : List BufferLine) (p : BufferCoord) (s : List Char)
    (hc : canonFrom 0 ls) (hl : p.line < ls.length) :
    canonFrom 0 (do_insert ls p s) := by
  rw [do_insert_eq]
  exact canon_surgery ls p.line _ hc hl

theorem canon_do_erase (ls : List BufferLine) (q1 q2 : BufferCoord)
    (hc : canonFrom 0 ls) (hl : q1.line < ls.length) :
    canonFrom 0 (do_erase ls q1 q2) := by
  rw [do_erase_eq]
  exact canon_surgery ls q1.line _ hc hl

theorem surgery_length (ls : List BufferLine) (l a : Nat) (X : List (List Char))
    (hl : l ≤ ls.length) :
    (ls.take l ++ linesFrom a X).length = l + X.length := by
  rw [List.length_append, linesFrom_length, List.length_take]
  omega

theorem newContents_ne_nil (old : List Char) (c : Nat) (s : List Char) :
    newContents old c s ≠ [] := by
  unfold newContents
  rcases h : splitContent s with ⟨F, r⟩
  cases F <;> simp

theorem newContents_head_len (old : List Char) (c : Nat) (s : List Char) :
    (old.take c).length ≤ ((newContents old c s).getD 0 []).length := by
  unfold newContents
  rcases h : splitContent s with ⟨F, r⟩
  cases F <;> simp

theorem valid_insert_begin (ls : List BufferLine) (p : BufferCoord) (s : List Char)
    (hv : validCoord ls p) : validCoord (do_insert ls p s) p := by
  obtain ⟨hl, hcol⟩ := hv
  have hcol' : p.column ≤ (ls.getD p.line default).content.length := hcol
  have hfrontlen : ((ls.getD p.line default).content.take p.column).length =
      p.column := by rw [List.length_take]; omega
  rw [do_insert_eq]
  constructor
  · rw [surgery_length ls p.line _ _ (Nat.le_of_lt hl)]
    have := newContents_ne_nil (ls.getD p.line default).content p.column s
    have : 0 < (newContents (ls.getD p.line default).content p.column s).length :=
      List.length_pos.2 this
    rw [List.length_append]
    omega
  · rw [surgery_getD_zero ls p.line _ _ (Nat.le_of_lt hl)
      (by simp [newContents_ne_nil])]
    show p.column ≤ (List.getD _ 0 []).length
    have hhead := newContents_head_len (ls.getD p.line default).content p.column s
    have hne := newContents_ne_nil (ls.getD p.line default).content p.column s
    rcases hX : newContents (ls.getD p.line default).content p.column s
      with _ | ⟨y, ys⟩
    · exact absurd hX hne
    · rw [hX] at hhead
      rw [show ((y :: ys) ++ (ls.drop (p.line + 1)).map BufferLine.content).getD 0 []
          = y from rfl]
      rw [hX] at *
      simp only [List.getD_cons_zero] at hhead
      omega

theorem valid_erase_begin (ls : List BufferLine) (q1 q2 : BufferCoord)
    (hv : validCoord ls q1) : validCoord (do_erase ls q1 q2) q1 := by
  obtain ⟨hl, hcol⟩ := hv
  have hcol' : q1.column ≤ (ls.getD q1.line default).content.length := hcol
  have hfrontlen : ((ls.getD q1.line default).content.take q1.column).length =
      q1.column := by rw [List.length_take]; omega
  rw [do_erase_eq]
  constructor
  · rw [surgery_length ls q1.line _ _ (Nat.le_of_lt hl)]
    simp only [List.length_cons]
    omega
  · rw [surgery_getD_zero ls q1.line _ _ (Nat.le_of_lt hl) (by simp)]
    show q1.column ≤ ((ls.getD q1.line default).content.take q1.column ++
        (ls.getD q2.line default).content.drop q2.column).length
    rw [List.length_append, hfrontlen]
    omega

theorem valid_insert_end (ls : List BufferLine) (p : BufferCoord) (s : List Char)
    (hv : validCoord ls p) : validCoord (do_insert ls p s) (insertEnd p s) := by
  obtain ⟨l, c⟩ := p
  obtain ⟨hl, hcol⟩ := hv
  have hcol' : c ≤ (ls.getD l default).content.length := hcol
  have hfrontlen : ((ls.getD l default).content.take c).length = c := by
    rw [List.length_take]; omega
  have hle : l ≤ ls.length := Nat.le_of_lt hl
  rcases hsplit : splitContent s with ⟨F, r⟩
  cases F with
  | nil =>
    have hnewC : newContents (ls.getD l default).content c s =
        [(ls.getD l default).content.take c ++ s ++
         (ls.getD l default).content.drop c] := by
      unfold newContents
      rw [hsplit]
    have hpe : insertEnd ⟨l, c⟩ s = ⟨l, c + s.length⟩ := by
      unfold insertEnd
      rw [hsplit]
    rw [do_insert_at, hnewC, hpe]
    constructor
    · rw [surgery_length _ _ _ _ hle]
      simp only [List.cons_append, List.length_cons]
      omega
    · rw [surgery_getD_zero _ _ _ _ hle (by simp)]
      show c + s.length ≤ ((ls.getD l default).content.take c ++ s ++
        (ls.getD l default).content.drop c).length
      rw [List.length_append, List.length_append, hfrontlen]
      omega
  | cons f fs =>
    have hnewC : newContents (ls.getD l default).content c s =
        ((ls.getD l default).content.take c ++ f) ::
          (fs ++ [r ++ (ls.getD l default).content.drop c]) := by
      unfold newContents
      rw [hsplit]
      rfl
    have hpe : insertEnd ⟨l, c⟩ s = ⟨l + (fs.length + 1), r.length⟩ := by
      unfold insertEnd
      rw [hsplit]
      rfl
    rw [do_insert_at, hnewC, hpe]
    constructor
    · rw [surgery_length _ _ _ _ hle]
      simp only [List.cons_append, List.length_cons, List.length_append]
      omega
    · rw [surgery_getD _ _ _ _ (fs.length + 1) hle (by simp)]
      show r.length ≤ (((((ls.getD l default).content.take c ++ f) ::
          (fs ++ [r ++ (ls.getD l default).content.drop c])) ++
          (ls.drop (l + 1)).map BufferLine.content).getD (fs.length + 1) []).length
      rw [getD_mid, List.length_append]
      omega

theorem recordModification_lines (b : Buffer) (m : Modification) :
    (recordModification b m).lines = b.lines := by
  unfold recordModification commitGroup
  split <;> rfl

theorem insert_ok (b : Buffer) (p : BufferCoord) (s : List Char)
    (hv : validCoord b.lines p) :
    b.insert p s = (recordModification
      { b with lines := do_insert b.lines p s, timestamp := b.timestamp + 1 }
      ⟨.ins, p, s⟩, none) := by
  unfold Buffer.insert
  rw [if_pos hv]

theorem erase_ok (b : Buffer) (q1 q2 : BufferCoord)
    (hv1 : validCoord b.lines q1) (hv2 : validCoord b.lines q2) :
    b.erase q1 q2 = (recordModification
      { b with lines := do_erase b.lines q1 q2, timestamp := b.timestamp + 1 }
      ⟨.er, q1, textBetween b.lines q1 q2⟩, none) := by
  unfold Buffer.erase
  rw [if_pos ⟨hv1, hv2⟩]

theorem undo_result (b : Buffer) (h : b.historyCursor ≠ 0) :
    b.undo = ({ b with
      lines := ((b.history.getD (b.historyCursor - 1) []).reverse).foldl
        revertModification b.lines,
      historyCursor := b.historyCursor - 1,
      timestamp := b.timestamp +
        (b.history.getD (b.historyCursor - 1) []).length }, true) := by
  unfold Buffer.undo
  rw [if_neg h]

theorem redo_result (b : Buffer) (h : b.historyCursor < b.history.length) :
    b.redo = ({ b with
      lines := (b.history.getD b.historyCursor []).foldl
        applyModification b.lines,
      historyCursor := b.historyCursor + 1,
      timestamp := b.timestamp +
        (b.history.getD b.historyCursor []).length }, true) := by
  unfold Buffer.redo
  rw [if_neg (Nat.not_le.2 h)]

/-- Undo and then redo of a freshly committed single-record group: undo
succeeds and applies the recorded primitive's inverse, redo succeeds and
re-applies it. -/
theorem commit_undo_redo (b0 : Buffer) (m : Modification)
    (hg : b0.inGroup = false) :
    (recordModification b0 m).undo.2 = true ∧
    (recordModification b0 m).undo.1.lines = revertModification b0.lines m ∧
    (recordModification b0 m).undo.1.redo.2 = true ∧
    (recordModification b0 m).undo.1.redo.1.lines =
      applyModification (revertModification b0.lines m) m := by
  have hrec : recordModification b0 m = commitGroup b0 [m] := by
    unfold recordModification
    rw [hg]
    simp
  have hcur : (commitGroup b0 [m]).historyCursor =
      (b0.history.take b0.historyCursor).length + 1 := rfl
  have hhist : (commitGroup b0 [m]).history =
      b0.history.take b0.historyCursor ++ [[m]] := rfl
  have hgetD : ∀ d : UndoGroup,
      (b0.history.take b0.historyCursor ++ [[m]]).getD
        (b0.history.take b0.historyCursor).length d = [m] := by
    intro d
    rw [getD_append_len]
    rfl
  have hne : (commitGroup b0 [m]).historyCursor ≠ 0 := by rw [hcur]; omega
  rw [hrec, undo_result _ hne]
  dsimp only
  rw [hcur, hhist, show (b0.history.take b0.historyCursor).length + 1 - 1 =
      (b0.history.take b0.historyCursor).length from by omega, hgetD]
  have hlines2 : ([m].reverse).foldl revertModification
      (commitGroup b0 [m]).lines = revertModification b0.lines m := rfl
  rw [hlines2]
  refine ⟨rfl, rfl, ?_, ?_⟩
  · rw [redo_result _ (by dsimp only; rw [List.length_append]; simp)]
  · rw [redo_result _ (by dsimp only; rw [List.length_append]; simp)]
    dsimp only
    rw [hgetD]
    rfl

/-!
## Claim theorems: round-trip and undo/redo identity
-/

/-- C3: for an invariant-satisfying buffer state and any coordinate valid in
that state, inserting any string there succeeds, erasing exactly the inserted
span succeeds, and the buffer content (the full line store) and the character
count are restored — insert followed by erase of the exact inserted span is a
no-op on content. -/
theorem C3_insert_erase_noop (b : Buffer) (p : BufferCoord) (s : List Char)
    (hI : BufInv b.lines) (hv : validCoord b.lines p) :
    (b.insert p s).2 = none ∧
    ((b.insert p s).1.erase p (insertEnd p s)).2 = none ∧
    ((b.insert p s).1.erase p (insertEnd p s)).1.lines = b.lines ∧
    ((b.insert p s).1.erase p (insertEnd p s)).1.character_count =
      b.character_count := by
  have hc : canonFrom 0 b.lines := ((BufInv_iff _).1 hI).2.2
  have hins := insert_ok b p s hv
  have hlines1 : (b.insert p s).1.lines = do_insert b.lines p s := by
    rw [hins]
    exact recordModification_lines _ _
  have hv1 : validCoord (b.insert p s).1.lines p := by
    rw [hlines1]
    exact valid_insert_begin _ _ _ hv
  have hv2 : validCoord (b.insert p s).1.lines (insertEnd p s) := by
    rw [hlines1]
    exact valid_insert_end _ _ _ hv
  have hers := erase_ok (b.insert p s).1 p (insertEnd p s) hv1 hv2
  have hrestore : ((b.insert p s).1.erase p (insertEnd p s)).1.lines = b.lines := by
    rw [hers]
    rw [show (recordModification
        { (b.insert p s).1 with
          lines := do_erase (b.insert p s).1.lines p (insertEnd p s),
          timestamp := (b.insert p s).1.timestamp + 1 }
        ⟨.er, p, textBetween (b.insert p s).1.lines p (insertEnd p s)⟩,
        (none : Option BufErr)).1.lines =
      do_erase (b.insert p s).1.lines p (insertEnd p s) from
      recordModification_lines _ _]
    rw [hlines1]
    exact insert_erase_id b.lines p s hc hv
  refine ⟨by rw [hins], by rw [hers], hrestore, ?_⟩
  unfold Buffer.character_count
  rw [hrestore]

/-- C3 witness: the concrete round trip on `"ab\n"` at (0,1) with `"xy"`. -/
theorem C3_witness :
    ((mkBuffer ['a','b','\n']).insert ⟨0,1⟩ ['x','y']).2 = none ∧
    (((mkBuffer ['a','b','\n']).insert ⟨0,1⟩ ['x','y']).1.erase ⟨0,1⟩
      (insertEnd ⟨0,1⟩ ['x','y'])).2 = none ∧
    (((mkBuffer ['a','b','\n']).insert ⟨0,1⟩ ['x','y']).1.erase ⟨0,1⟩
      (insertEnd ⟨0,1⟩ ['x','y'])).1.lines = (mkBuffer ['a','b','\n']).lines ∧
    (((mkBuffer ['a','b','\n']).insert ⟨0,1⟩ ['x','y']).1.erase ⟨0,1⟩
      (insertEnd ⟨0,1⟩ ['x','y'])).1.character_count =
      (mkBuffer ['a','b','\n']).character_count :=
  C3_insert_erase_noop (mkBuffer ['a','b','\n']) ⟨0,1⟩ ['x','y']
    (by decide) (by decide)

/-- C4: from an invariant-satisfying state with no undo group open, a
committed edit (insert at a valid coordinate, or erase between valid
coordinates) followed by `undo()` and then `redo()` reports success for both
calls and yields buffer content — the line store and the character count —
identical to the state immediately after the edit. -/
theorem C4_undo_redo_identity (b : Buffer) (hI : BufInv b.lines)
    (hg : b.inGroup = false) :
    (∀ (p : BufferCoord) (s : List Char), validCoord b.lines p →
      (b.insert p s).1.undo.2 = true ∧
      (b.insert p s).1.undo.1.redo.2 = true ∧
      (b.insert p s).1.undo.1.redo.1.lines = (b.insert p s).1.lines ∧
      (b.insert p s).1.undo.1.redo.1.character_count =
        (b.insert p s).1.character_count) ∧
    (∀ (q1 q2 : BufferCoord), validCoord b.lines q1 → validCoord b.lines q2 →
      (b.erase q1 q2).1.undo.2 = true ∧
      (b.erase q1 q2).1.undo.1.redo.2 = true ∧
      (b.erase q1 q2).1.undo.1.redo.1.lines = (b.erase q1 q2).1.lines ∧
      (b.erase q1 q2).1.undo.1.redo.1.character_count =
        (b.erase q1 q2).1.character_count) := by
  have hc : canonFrom 0 b.lines := ((BufInv_iff _).1 hI).2.2
  constructor
  · intro p s hv
    have hins := insert_ok b p s hv
    have hmain := commit_undo_redo
      { b with lines := do_insert b.lines p s, timestamp := b.timestamp + 1 }
      ⟨.ins, p, s⟩ hg
    obtain ⟨hu2, hulines, hr2, hrlines⟩ := hmain
    have hrev : revertModification ({ b with lines := do_insert b.lines p s, timestamp := b.timestamp + 1 } : Buffer).lines ⟨.ins, p, s⟩ = b.lines := by
      show do_erase (do_insert b.lines p s) p (insertEnd p s) = b.lines
      exact insert_erase_id b.lines p s hc hv
    rw [hrev] at hrlines
    have h1 : (b.insert p s).1 = recordModification
        { b with lines := do_insert b.lines p s, timestamp := b.timestamp + 1 }
        ⟨.ins, p, s⟩ := by rw [hins]
    rw [h1]
    refine ⟨hu2, hr2, ?_, ?_⟩
    · rw [hrlines, recordModification_lines]
      rfl
    · unfold Buffer.character_count
      rw [hrlines, recordModification_lines]
      rfl
  · intro q1 q2 hv1 hv2
    have hers := erase_ok b q1 q2 hv1 hv2
    have hmain := commit_undo_redo
      { b with lines := do_erase b.lines q1 q2, timestamp := b.timestamp + 1 }
      ⟨.er, q1, textBetween b.lines q1 q2⟩ hg
    obtain ⟨hu2, hulines, hr2, hrlines⟩ := hmain
    have hc0 : canonFrom 0 ({ b with lines := do_erase b.lines q1 q2, timestamp := b.timestamp + 1 } : Buffer).lines := by
      show canonFrom 0 (do_erase b.lines q1 q2)
      exact canon_do_erase b.lines q1 q2 hc hv1.1
    have hvq : validCoord ({ b with lines := do_erase b.lines q1 q2, timestamp := b.timestamp + 1 } : Buffer).lines q1 := by
      show validCoord (do_erase b.lines q1 q2) q1
      exact valid_erase_begin b.lines q1 q2 hv1
    have hkey : applyModification (revertModification ({ b with lines := do_erase b.lines q1 q2, timestamp := b.timestamp + 1 } : Buffer).lines ⟨.er, q1, textBetween b.lines q1 q2⟩) ⟨.er, q1, textBetween b.lines q1 q2⟩ = ({ b with lines := do_erase b.lines q1 q2, timestamp := b.timestamp + 1 } : Buffer).lines := by
      show do_erase (do_insert (do_erase b.lines q1 q2) q1
          (textBetween b.lines q1 q2)) q1
          (insertEnd q1 (textBetween b.lines q1 q2)) =
        do_erase b.lines q1 q2
      exact insert_erase_id _ q1 _ hc0 hvq
    rw [hkey] at hrlines
    have h1 : (b.erase q1 q2).1 = recordModification
        { b with lines := do_erase b.lines q1 q2, timestamp := b.timestamp + 1 }
        ⟨.er, q1, textBetween b.lines q1 q2⟩ := by rw [hers]
    rw [h1]
    refine ⟨hu2, hr2, ?_, ?_⟩
    · rw [hrlines, recordModification_lines]
    · unfold Buffer.character_count
      rw [hrlines, recordModification_lines]

/-- C4 witness: the concrete insert of `"z"` at (0,1) in `"ab\n"`, then undo
and redo, lands back exactly on the post-edit content. -/
theorem C4_witness :
    ((mkBuffer ['a','b','\n']).insert ⟨0,1⟩ ['z']).1.undo.2 = true ∧
    ((mkBuffer ['a','b','\n']).insert ⟨0,1⟩ ['z']).1.undo.1.redo.2 = true ∧
    ((mkBuffer ['a','b','\n']).insert ⟨0,1⟩ ['z']).1.undo.1.redo.1.lines =
      ((mkBuffer ['a','b','\n']).insert ⟨0,1⟩ ['z']).1.lines ∧
    ((mkBuffer ['a','b','\n']).insert ⟨0,1⟩
      ['z']).1.undo.1.redo.1.character_count =
      ((mkBuffer ['a','b','\n']).insert ⟨0,1⟩ ['z']).1.character_count :=
  (C4_undo_redo_identity (mkBuffer ['a','b','\n']) (by decide) rfl).1
    ⟨0,1⟩ ['z'] (by decide)

/-!
## Well-formed line contents: decomposition toolkit
-/

theorem linesOK_cons_iff (c : List Char) (cs : List (List Char)) (hne : cs ≠ []) :
    linesOK (c :: cs) ↔ lineOK c ∧ linesOK cs := by
  cases cs with
  | nil => exact absurd rfl hne
  | cons c2 cs2 => exact Iff.rfl

theorem linesOK_append (A B : List (List Char)) (hB : B ≠ []) :
    linesOK (A ++ B) ↔ (∀ c ∈ A, lineOK c) ∧ linesOK B := by
  induction A with
  | nil => simp
  | cons a A ih =>
    have hne : A ++ B ≠ [] := by
      intro h
      exact hB (List.append_eq_nil.1 h).2
    rw [List.cons_append, linesOK_cons_iff a (A ++ B) hne, ih]
    constructor
    · rintro ⟨h1, h2, h3⟩
      refine ⟨?_, h3⟩
      intro c hc
      rcases List.mem_cons.1 hc with rfl | hc
      · exact h1
      · exact h2 c hc
    · rintro ⟨h1, h2⟩
      exact ⟨h1 a (List.mem_cons_self a A), fun c hc =>
        h1 c (List.mem_cons_of_mem a hc), h2⟩

theorem linesOK_split (cs : List (List Char)) (k : Nat) (hk : k < cs.length)
    (h : linesOK cs) :
    (∀ c ∈ cs.take k, lineOK c) ∧ linesOK (cs.drop k) := by
  have hne : cs.drop k ≠ [] := by
    intro hnil
    rw [List.drop_eq_nil_iff_le] at hnil
    omega
  exact (linesOK_append _ _ hne).1 (by rw [List.take_append_drop]; exact h)

theorem linesOK_line_facts (cs : List (List Char)) (k : Nat)
    (hk : k < cs.length) (h : linesOK cs) :
    noMidNL (cs.getD k []) ∧ (k < cs.length - 1 → lineOK (cs.getD k [])) := by
  have h2 := (linesOK_split cs k hk h).2
  rw [← getD_cons_drop cs k [] hk] at h2
  by_cases hlast : cs.drop (k + 1) = []
  · rw [hlast] at h2
    have hk2 : ¬ (k < cs.length - 1) := by
      rw [List.drop_eq_nil_iff_le] at hlast
      omega
    exact ⟨h2, fun hcontra => absurd hcontra hk2⟩
  · have h3 := (linesOK_cons_iff _ _ hlast).1 h2
    exact ⟨h3.1.2, fun _ => h3.1⟩

theorem noMid_of_noNL (v : List Char) (h : '\n' ∉ v) : noMidNL v := by
  intro hmem
  rw [List.dropLast_eq_take] at hmem
  exact h (List.take_subset _ _ hmem)

theorem lineOK_concat (v : List Char) (h : '\n' ∉ v) : lineOK (v ++ ['\n']) := by
  constructor
  · exact List.getLast?_concat v
  · show '\n' ∉ (v ++ ['\n']).dropLast
    rw [List.dropLast_concat]
    exact h

theorem noNL_of_noMid (v : List Char) (hm : noMidNL v) (he : ¬ endsNL v) :
    '\n' ∉ v := by
  induction v using List.reverseRecOn with
  | nil => simp
  | append_singleton u x ih =>
    intro hmem
    rcases List.mem_append.1 hmem with h | h
    · have hm2 : '\n' ∉ u := by
        rw [noMidNL, List.dropLast_concat] at hm
        exact hm
      exact hm2 h
    · simp only [List.mem_singleton] at h
      subst h
      exact he (by rw [endsNL, List.getLast?_concat])

theorem endsNL_shape (v : List Char) (hE : endsNL v) (hm : noMidNL v) :
    ∃ u, v = u ++ ['\n'] ∧ '\n' ∉ u := by
  induction v using List.reverseRecOn with
  | nil => exact absurd hE (by simp [endsNL])
  | append_singleton u x ih =>
    rw [endsNL, List.getLast?_concat, Option.some_inj] at hE
    subst hE
    rw [noMidNL, List.dropLast_concat] at hm
    exact ⟨u, rfl, hm⟩

theorem take_noNL (v : List Char) (col : Nat) (hm : noMidNL v)
    (he : endsNL v → col < v.length) : '\n' ∉ v.take col := by
  by_cases hE : endsNL v
  · obtain ⟨u, rfl, hnu⟩ := endsNL_shape v hE hm
    have hcol : col ≤ u.length := by
      have := he hE
      rw [List.length_append, List.length_singleton] at this
      omega
    rw [List.take_append_eq_append_take,
        show col - u.length = 0 from by omega, List.take_zero,
        List.append_nil]
    intro hmem
    exact hnu (List.take_subset _ _ hmem)
  · intro hmem
    exact noNL_of_noMid v hm hE (List.take_subset _ _ hmem)

theorem drop_shape_endsNL (u : List Char) (hnu : '\n' ∉ u) (col : Nat)
    (hcol : col ≤ u.length) :
    (u ++ ['\n']).drop col = u.drop col ++ ['\n'] := by
  rw [List.drop_append_eq_append_drop, show col - u.length = 0 from by omega,
      List.drop_zero]

/-- Shape of the edited region's new contents: some fully well-formed lines
followed by a last line that ends with the original line's tail. -/
theorem newContents_shape (old : List Char) (c : Nat) (s : List Char)
    (hfr : '\n' ∉ old.take c) :
    ∃ (init : List (List Char)) (z : List Char),
      newContents old c s = init ++ [z ++ old.drop c] ∧
      (∀ w ∈ init, lineOK w) ∧ '\n' ∉ z := by
  unfold newContents
  rcases hsplit : splitContent s with ⟨F, r⟩
  cases F with
  | nil =>
    refine ⟨[], old.take c ++ s, by simp [List.append_assoc], by simp, ?_⟩
    have hcount := splitContent_count s
    rw [hsplit] at hcount
    simp only [List.length_nil] at hcount
    have hs : '\n' ∉ s := List.count_eq_zero.1 hcount.symm
    intro hmem
    rcases List.mem_append.1 hmem with h | h
    · exact hfr h
    · exact hs h
  | cons f fs =>
    refine ⟨(old.take c ++ f) :: fs, r, rfl, ?_, ?_⟩
    · intro w hw
      rcases List.mem_cons.1 hw with rfl | hw
      · obtain ⟨u, hu, hnu⟩ := splitContent_fst_shape s f
          (by rw [hsplit]; exact List.mem_cons_self f fs)
        rw [hu, ← List.append_assoc]
        apply lineOK_concat
        intro hmem
        rcases List.mem_append.1 hmem with h | h
        · exact hfr h
        · exact hnu h
      · obtain ⟨u, hu, hnu⟩ := splitContent_fst_shape s w
          (by rw [hsplit]; exact List.mem_cons_of_mem f hw)
        rw [hu]
        exact lineOK_concat u hnu
    · have := splitContent_snd_noNL s
      rw [hsplit] at this
      exact this

theorem map_content_do_insert (ls : List BufferLine) (p : BufferCoord)
    (s : List Char) (hl : p.line < ls.length) :
    (do_insert ls p s).map BufferLine.content =
      (ls.map BufferLine.content).take p.line ++
      (newContents ((ls.map BufferLine.content).getD p.line []) p.column s ++
       (ls.map BufferLine.content).drop (p.line + 1)) := by
  rw [do_insert_eq, List.map_append, linesFrom_map_content, map_take',
      getD_map_content ls p.line hl, map_drop']

theorem map_content_do_erase (ls : List BufferLine) (q1 q2 : BufferCoord)
    (h1 : q1.line < ls.length) (h2 : q2.line < ls.length) :
    (do_erase ls q1 q2).map BufferLine.content =
      (ls.map BufferLine.content).take q1.line ++
      ((((ls.map BufferLine.content).getD q1.line []).take q1.column ++
        ((ls.map BufferLine.content).getD q2.line []).drop q2.column) ::
       (ls.map BufferLine.content).drop (q2.line + 1)) := by
  rw [do_erase_eq, List.map_append, linesFrom_map_content, map_take',
      getD_map_content ls q1.line h1, getD_map_content ls q2.line h2,
      map_drop']

theorem linesOK_do_insert (ls : List BufferLine) (p : BufferCoord)
    (s : List Char) (hOK : linesOK (ls.map BufferLine.content))
    (hs : SafeIns ls p) :
    linesOK ((do_insert ls p s).map BufferLine.content) := by
  obtain ⟨⟨hl, hcol⟩, hsafe⟩ := hs
  have hlen : p.line < (ls.map BufferLine.content).length := by simpa using hl
  have hold : (ls.map BufferLine.content).getD p.line [] =
      (ls.getD p.line default).content := getD_map_content ls p.line hl
  rw [map_content_do_insert ls p s hl, hold]
  obtain ⟨hmid, hlast⟩ := linesOK_line_facts (ls.map BufferLine.content)
    p.line hlen hOK
  rw [hold] at hmid hlast
  have hsafe' : endsNL (ls.getD p.line default).content →
      p.column < (ls.getD p.line default).content.length := hsafe
  have hfr : '\n' ∉ (ls.getD p.line default).content.take p.column :=
    take_noNL _ p.column hmid hsafe'
  obtain ⟨init, z, hshape, hinitOK, hz⟩ :=
    newContents_shape (ls.getD p.line default).content p.column s hfr
  rw [hshape]
  rw [show (init ++ [z ++ (ls.getD p.line default).content.drop p.column]) ++
      (ls.map BufferLine.content).drop (p.line + 1) =
      init ++ ((z ++ (ls.getD p.line default).content.drop p.column) ::
        (ls.map BufferLine.content).drop (p.line + 1)) from by
    rw [List.append_assoc]; rfl]
  rw [← List.append_assoc, linesOK_append _ _ (by simp)]
  constructor
  · intro w hw
    rcases List.mem_append.1 hw with hw | hw
    · exact (linesOK_split _ p.line hlen hOK).1 w hw
    · exact hinitOK w hw
  · by_cases hB : (ls.map BufferLine.content).drop (p.line + 1) = []
    · rw [hB]
      show noMidNL (z ++ (ls.getD p.line default).content.drop p.column)
      by_cases hE : endsNL (ls.getD p.line default).content
      · obtain ⟨u, hu, hnu⟩ := endsNL_shape _ hE hmid
        have hcle : p.column ≤ u.length := by
          have h2 := hsafe' hE
          rw [hu, List.length_append, List.length_singleton] at h2
          omega
        rw [hu, drop_shape_endsNL u hnu p.column hcle, ← List.append_assoc]
        refine (lineOK_concat _ ?_).2
        intro hmem
        rcases List.mem_append.1 hmem with h | h
        · exact hz h
        · exact hnu (List.drop_subset _ _ h)
      · have hov : '\n' ∉ (ls.getD p.line default).content :=
          noNL_of_noMid _ hmid hE
        apply noMid_of_noNL
        intro hmem
        rcases List.mem_append.1 hmem with h | h
        · exact hz h
        · exact hov (List.drop_subset _ _ h)
    · have hlt : p.line < (ls.map BufferLine.content).length - 1 := by
        have h2 : ¬ ((ls.map BufferLine.content).length ≤ p.line + 1) := by
          intro hcontra
          exact hB (by rw [List.drop_eq_nil_iff]; omega)
        omega
      have hE : endsNL (ls.getD p.line default).content := (hlast hlt).1
      obtain ⟨u, hu, hnu⟩ := endsNL_shape _ hE hmid
      have hcle : p.column ≤ u.length := by
        have h2 := hsafe' hE
        rw [hu, List.length_append, List.length_singleton] at h2
        omega
      rw [linesOK_cons_iff _ _ hB]
      constructor
      · rw [hu, drop_shape_endsNL u hnu p.column hcle, ← List.append_assoc]
        refine lineOK_concat _ ?_
        intro hmem
        rcases List.mem_append.1 hmem with h | h
        · exact hz h
        · exact hnu (List.drop_subset _ _ h)
      · have hdropOK := (linesOK_split _ p.line hlen hOK).2
        rw [← getD_cons_drop (ls.map BufferLine.content) p.line [] hlen]
          at hdropOK
        exact ((linesOK_cons_iff _ _ hB).1 hdropOK).2

theorem linesOK_do_erase (ls : List BufferLine) (q1 q2 : BufferCoord)
    (hOK : linesOK (ls.map BufferLine.content)) (hse : SafeEr ls q1 q2) :
    linesOK ((do_erase ls q1 q2).map BufferLine.content) := by
  obtain ⟨⟨⟨hl1, hcol1⟩, hsafe1⟩, ⟨⟨hl2, hcol2⟩, hsafe2⟩, _⟩ := hse
  have hlen1 : q1.line < (ls.map BufferLine.content).length := by simpa using hl1
  have hlen2 : q2.line < (ls.map BufferLine.content).length := by simpa using hl2
  rw [map_content_do_erase ls q1 q2 hl1 hl2,
      getD_map_content ls q1.line hl1, getD_map_content ls q2.line hl2]
  obtain ⟨hmid1, _⟩ := linesOK_line_facts (ls.map BufferLine.content)
    q1.line hlen1 hOK
  obtain ⟨hmid2, hlast2⟩ := linesOK_line_facts (ls.map BufferLine.content)
    q2.line hlen2 hOK
  rw [getD_map_content ls q1.line hl1] at hmid1
  rw [getD_map_content ls q2.line hl2] at hmid2 hlast2
  have hfr : '\n' ∉ (ls.getD q1.line default).content.take q1.column :=
    take_noNL _ q1.column hmid1 hsafe1
  rw [linesOK_append _ _ (by simp)]
  constructor
  · intro w hw
    exact (linesOK_split _ q1.line hlen1 hOK).1 w hw
  · by_cases hB : (ls.map BufferLine.content).drop (q2.line + 1) = []
    · rw [hB]
      show noMidNL ((ls.getD q1.line default).content.take q1.column ++
        (ls.getD q2.line default).content.drop q2.column)
      by_cases hE : endsNL (ls.getD q2.line default).content
      · obtain ⟨u, hu, hnu⟩ := endsNL_shape _ hE hmid2
        have hcle : q2.column ≤ u.length := by
          have h2 := hsafe2 hE
          rw [show (ls.getD q2.line default).len =
            (ls.getD q2.line default).content.length from rfl, hu,
            List.length_append, List.length_singleton] at h2
          omega
        rw [hu, drop_shape_endsNL u hnu q2.column hcle, ← List.append_assoc]
        refine (lineOK_concat _ ?_).2
        intro hmem
        rcases List.mem_append.1 hmem with h | h
        · exact hfr h
        · exact hnu (List.drop_subset _ _ h)
      · have hov : '\n' ∉ (ls.getD q2.line default).content :=
          noNL_of_noMid _ hmid2 hE
        apply noMid_of_noNL
        intro hmem
        rcases List.mem_append.1 hmem with h | h
        · exact hfr h
        · exact hov (List.drop_subset _ _ h)
    · have hlt : q2.line < (ls.map BufferLine.content).length - 1 := by
        have h2 : ¬ ((ls.map BufferLine.content).length ≤ q2.line + 1) := by
          intro hcontra
          exact hB (by rw [List.drop_eq_nil_iff]; omega)
        omega
      have hE : endsNL (ls.getD q2.line default).content := (hlast2 hlt).1
      obtain ⟨u, hu, hnu⟩ := endsNL_shape _ hE hmid2
      have hcle : q2.column ≤ u.length := by
        have h2 := hsafe2 hE
        rw [show (ls.getD q2.line default).len =
          (ls.getD q2.line default).content.length from rfl, hu,
          List.length_append, List.length_singleton] at h2
        omega
      rw [linesOK_cons_iff _ _ hB]
      constructor
      · rw [hu, drop_shape_endsNL u hnu q2.column hcle, ← List.append_assoc]
        refine lineOK_concat _ ?_
        intro hmem
        rcases List.mem_append.1 hmem with h | h
        · exact hfr h
        · exact hnu (List.drop_subset _ _ h)
      · have hdropOK := (linesOK_split _ q2.line hlen2 hOK).2
        rw [← getD_cons_drop (ls.map BufferLine.content) q2.line [] hlen2]
          at hdropOK
        exact ((linesOK_cons_iff _ _ hB).1 hdropOK).2

theorem BufInv_do_insert (ls : List BufferLine) (p : BufferCoord)
    (s : List Char) (hI : BufInv ls) (hs : SafeIns ls p) :
    BufInv (do_insert ls p s) := by
  obtain ⟨_, hOK, hcanon⟩ := (BufInv_iff ls).1 hI
  have hpos : 0 < (do_insert ls p s).length := by
    rw [do_insert_eq, surgery_length ls p.line _ _ (Nat.le_of_lt hs.1.1),
        List.length_append]
    have := List.length_pos.2
      (newContents_ne_nil (ls.getD p.line default).content p.column s)
    omega
  exact (BufInv_iff _).2 ⟨List.length_pos.1 hpos,
    linesOK_do_insert ls p s hOK hs, canon_do_insert ls p s hcanon hs.1.1⟩

theorem BufInv_do_erase (ls : List BufferLine) (q1 q2 : BufferCoord)
    (hI : BufInv ls) (hse : SafeEr ls q1 q2) :
    BufInv (do_erase ls q1 q2) := by
  obtain ⟨_, hOK, hcanon⟩ := (BufInv_iff ls).1 hI
  have hpos : 0 < (do_erase ls q1 q2).length := by
    rw [do_erase_eq, surgery_length ls q1.line _ _ (Nat.le_of_lt hse.1.1.1),
        List.length_cons]
    omega
  exact (BufInv_iff _).2 ⟨List.length_pos.1 hpos,
    linesOK_do_erase ls q1 q2 hOK hse,
    canon_do_erase ls q1 q2 hcanon hse.1.1.1⟩

theorem BufInv_revertSeq (ms : List Modification) :
    ∀ ls : List BufferLine, BufInv ls → SafeRevertSeq ls ms →
      BufInv (ms.foldl revertModification ls) := by
  induction ms with
  | nil => intro ls hI _; exact hI
  | cons m ms ih =>
    intro ls hI hsafe
    obtain ⟨hm, hrest⟩ := hsafe
    have hstep : BufInv (revertModification ls m) := by
      rcases m with ⟨k, c, s⟩
      cases k with
      | ins => exact BufInv_do_erase ls c (insertEnd c s) hI hm
      | er => exact BufInv_do_insert ls c s hI hm
    exact ih (revertModification ls m) hstep hrest

theorem BufInv_applySeq (ms : List Modification) :
    ∀ ls : List BufferLine, BufInv ls → SafeApplySeq ls ms →
      BufInv (ms.foldl applyModification ls) := by
  induction ms with
  | nil => intro ls hI _; exact hI
  | cons m ms ih =>
    intro ls hI hsafe
    obtain ⟨hm, hrest⟩ := hsafe
    have hstep : BufInv (applyModification ls m) := by
      rcases m with ⟨k, c, s⟩
      cases k with
      | ins => exact BufInv_do_insert ls c s hI hm
      | er => exact BufInv_do_erase ls c (insertEnd c s) hI hm
    exact ih (applyModification ls m) hstep hrest

/-- C2 amended: the buffer invariant — at least one line; every non-final
line ends with exactly one terminator; `character_count()` equals the sum of
line lengths; consecutive start offsets follow the line lengths — holds
after construction with the default initial content, and is preserved by
`insert` when the coordinate does not sit just past a line's trailing
terminator, by `erase` when both coordinates satisfy the same condition and
are ordered, and by `undo`/`redo` when each primitive they replay applies in
sequence at coordinates satisfying the same condition (a failing `undo` or
`redo` trivially preserves it). -/
theorem C2_amended_invariant :
    BufInv (mkBuffer ['\n']).lines ∧
    (∀ (b : Buffer) (p : BufferCoord) (s : List Char),
        BufInv b.lines → SafeIns b.lines p →
        BufInv (b.insert p s).1.lines) ∧
    (∀ (b : Buffer) (q1 q2 : BufferCoord),
        BufInv b.lines → SafeEr b.lines q1 q2 →
        BufInv (b.erase q1 q2).1.lines) ∧
    (∀ b : Buffer, BufInv b.lines →
        (b.historyCursor = 0 ∨
         SafeRevertSeq b.lines
           ((b.history.getD (b.historyCursor - 1) []).reverse)) →
        BufInv b.undo.1.lines) ∧
    (∀ b : Buffer, BufInv b.lines →
        (b.history.length ≤ b.historyCursor ∨
         SafeApplySeq b.lines (b.history.getD b.historyCursor [])) →
        BufInv b.redo.1.lines) := by
  refine ⟨by decide, ?_, ?_, ?_, ?_⟩
  · intro b p s hI hs
    rw [insert_ok b p s hs.1]
    show BufInv (recordModification { b with lines := do_insert b.lines p s, timestamp := b.timestamp + 1 } ⟨.ins, p, s⟩).lines
    rw [recordModification_lines]
    exact BufInv_do_insert b.lines p s hI hs
  · intro b q1 q2 hI hse
    rw [erase_ok b q1 q2 hse.1.1 hse.2.1.1]
    show BufInv (recordModification { b with lines := do_erase b.lines q1 q2, timestamp := b.timestamp + 1 } ⟨.er, q1, textBetween b.lines q1 q2⟩).lines
    rw [recordModification_lines]
    exact BufInv_do_erase b.lines q1 q2 hI hse
  · intro b hI hsafe
    by_cases hcur : b.historyCursor = 0
    · unfold Buffer.undo
      rw [if_pos hcur]
      exact hI
    · rcases hsafe with h0 | hsafe
      · exact absurd h0 hcur
      · rw [undo_result b hcur]
        show BufInv (((b.history.getD (b.historyCursor - 1) []).reverse).foldl
          revertModification b.lines)
        exact BufInv_revertSeq _ b.lines hI hsafe
  · intro b hI hsafe
    by_cases hcur : b.history.length ≤ b.historyCursor
    · unfold Buffer.redo
      rw [if_pos hcur]
      exact hI
    · rcases hsafe with h0 | hsafe
      · exact absurd h0 hcur
      · rw [redo_result b (Nat.not_le.1 hcur)]
        show BufInv ((b.history.getD b.historyCursor []).foldl
          applyModification b.lines)
        exact BufInv_applySeq _ b.lines hI hsafe

/-- C2 witness: the invariant survives a concrete safe insert into `"ab\n"`
and a (failing) undo on a fresh buffer. -/
theorem C2_witness :
    BufInv ((mkBuffer ['a','b','\n']).insert ⟨0,1⟩ ['q','\n']).1.lines ∧
    BufInv (mkBuffer ['\n']).undo.1.lines :=
  ⟨C2_amended_invariant.2.1 (mkBuffer ['a','b','\n']) ⟨0,1⟩ ['q','\n']
      (by decide) (by decide),
   C2_amended_invariant.2.2.2.1 (mkBuffer ['\n']) (by decide) (Or.inl rfl)⟩
